import Mathlib

/-!
Verification development for the `aruba-compliance` repository
(`src/main.py` and `src/aruba_central_api.py`).

The development shallowly embeds the two core subsystems:

* the exemption filter and configuration differ of `src/main.py`
  (`apply_exemptions`, `compare_configs`), including a model of Python's
  `fnmatch` glob matching, `json.dumps(..., indent=2, sort_keys=True)`
  serialization and `difflib.unified_diff`;
* the token lifecycle manager of `src/aruba_central_api.py`
  (`_get_access_token`, `_refresh_token`, `_authenticate_new_token`,
  `_save_token_data`), with the HTTP transport modelled as an oracle that
  reports, for each grant type, either a parsed JSON response or a
  `requests` exception.

Machine strings are modelled as Lean `String` / `List Char`; Python
`str.startswith`, `str.strip` and dict iteration order are modelled
explicitly.  All definitions are executable and kernel-reducible.
-/

namespace Aruba

/-! ## Python string primitives -/

/-- Python `s.startswith(pre)`: `pre.data` is a prefix of `s.data`. -/
def pyStartsWith (s pre : String) : Bool := pre.data.isPrefixOf s.data

/-- Characters removed by Python `str.strip()` (ASCII whitespace). -/
def isPySpace (c : Char) : Bool :=
  c == ' ' || c == '\t' || c == '\n' || c == '\r' || c == '\x0b' || c == '\x0c'

/-- Python `s.strip()` on the underlying character list. -/
def pyStripChars (l : List Char) : List Char :=
  ((l.dropWhile isPySpace).reverse.dropWhile isPySpace).reverse

/-- Python `s.strip()`. -/
def pyStrip (s : String) : String := ⟨pyStripChars s.data⟩

/-! ## `fnmatch` glob matching

Model of Python `fnmatch.fnmatch(name, pat)` as used by `apply_exemptions`
(`src/main.py` lines 48 and 64).  On POSIX `os.path.normcase` is the
identity, so `fnmatch.fnmatch` coincides with `fnmatch.fnmatchcase`:
the pattern is compiled (CPython's `fnmatch.translate`) and matched against
the whole string.  `*` matches any character sequence, `?` any single
character, and `[...]` a character class with ranges, where `[!...]`
negates, a `]` or `-` in leading/trailing position is literal, an
unterminated `[` is literal, and a reversed range such as `z-a` matches
nothing. -/

/-- One member of a compiled character class: a literal character or an
inclusive range (a reversed range matches nothing, as in CPython where
invalid ranges are removed from the compiled class). -/
inductive ClassItem where
  | single (c : Char)
  | range (a b : Char)
deriving DecidableEq

/-- Parse the body of a character class: `a-b` triples become ranges,
everything else (including leading/trailing hyphens) is literal. -/
def parseItems : List Char → List ClassItem
  | a :: '-' :: b :: rest => .range a b :: parseItems rest
  | a :: rest => .single a :: parseItems rest
  | [] => []

/-- Does character `c` belong to the class described by `items`? -/
def classMatch (c : Char) : List ClassItem → Bool
  | [] => false
  | .single a :: rest => c == a || classMatch c rest
  | .range a b :: rest => (a ≤ c && c ≤ b) || classMatch c rest

/-- A token of a compiled glob pattern (the analogue of the regex produced
by `fnmatch.translate`). -/
inductive GlobTok where
  | star
  | anyChar
  | lit (c : Char)
  | cls (neg : Bool) (items : List ClassItem)
deriving DecidableEq

/-- Scan for the `]` closing a character class; returns the class body and
the remainder after the `]`, or `none` when the class is unterminated. -/
def findClose : List Char → Option (List Char × List Char)
  | [] => none
  | ']' :: rest => some ([], rest)
  | c :: rest =>
    match findClose rest with
    | some (b, r) => some (c :: b, r)
    | none => none

/-- Compile a glob pattern to tokens, following `fnmatch.translate`: after
`[` an optional `!` negates, an immediately following `]` is a literal
class member, and if no closing `]` exists the `[` is literal.  The fuel
argument (instantiated with the pattern length, which bounds the number of
compilation steps) makes the recursion structural. -/
def compileGlob : Nat → List Char → List GlobTok
  | 0, _ => []
  | _, [] => []
  | fuel + 1, '*' :: ps => .star :: compileGlob fuel ps
  | fuel + 1, '?' :: ps => .anyChar :: compileGlob fuel ps
  | fuel + 1, '[' :: ps =>
    let negRest : Bool × List Char :=
      match ps with
      | '!' :: t => (true, t)
      | _ => (false, ps)
    let ext : Option (List Char × List Char) :=
      match negRest.2 with
      | ']' :: t =>
        match findClose t with
        | some (b, r) => some (']' :: b, r)
        | none => none
      | l => findClose l
    match ext with
    | some (body, rest) => .cls negRest.1 (parseItems body) :: compileGlob fuel rest
    | none => .lit '[' :: compileGlob fuel ps
  | fuel + 1, c :: ps => .lit c :: compileGlob fuel ps

/-- Match a compiled pattern against a character list.  The `star` case
tries every suffix, which is extensionally the regex `.*` semantics. -/
def globMatch : List GlobTok → List Char → Bool
  | [], s => s.isEmpty
  | .star :: ts, s => s.tails.any (fun suf => globMatch ts suf)
  | .anyChar :: _, [] => false
  | .anyChar :: ts, _ :: cs => globMatch ts cs
  | .lit _ :: _, [] => false
  | .lit a :: ts, c :: cs => a == c && globMatch ts cs
  | .cls _ _ :: _, [] => false
  | .cls neg items :: ts, c :: cs => (classMatch c items != neg) && globMatch ts cs

/-- Python `fnmatch.fnmatch(name, pat)` (POSIX, i.e. no case folding). -/
def fnmatch (name pat : String) : Bool :=
  globMatch (compileGlob (pat.data.length + 1) pat.data) name.data

/-! ## The exemption filter (`apply_exemptions`, `src/main.py` lines 20-74)

The filter's rule set is a Python dict mapping block-header glob patterns
to values; `apply_exemptions` distinguishes the value `"*"` (string
equality), list values (line patterns) and anything else (matched but
inert).  Dict iteration order is insertion order, modelled by the list
order. -/

/-- The value side of one exemption rule entry: a string, a list of line
patterns, or some other JSON value (matched by the loop but neither `"*"`
nor a list, hence inert). -/
inductive RuleVal where
  | strVal (s : String)
  | listVal (pats : List String)
  | otherVal
deriving DecidableEq

/-- `line` is a block header: it does not start with a space
(`not line.startswith(' ')`, line 42). -/
def isHeader (line : String) : Bool := !pyStartsWith line " "

/-- The rule-matching loop of lines 47-55: scan entries in declared order
and return the value of the first entry whose pattern glob-matches the
header line (`break` on the first match). -/
def ruleLookup : List (String × RuleVal) → String → Option RuleVal
  | [], _ => none
  | (pat, v) :: rest, line =>
    if fnmatch line pat then some v else ruleLookup rest line

/-- Lines 61-69: the line survives unless its stripped form matches one of
the active line-exemption patterns.  Returns `true` when the line is
emitted. -/
def emitCheck (cur : List String) (line : String) : Bool :=
  !cur.any (fun pat => fnmatch (pyStrip line) pat)

/-- Filter state: `(in_fully_exempt_block, current_line_exemptions)`. -/
abbrev FilterState := Bool × List String

/-- Processing of one line of the loop body (lines 34-72): returns the new
state and whether the line is emitted. -/
def lineStep (rules : List (String × RuleVal)) (st : FilterState) (line : String) :
    FilterState × Bool :=
  match st with
  | (true, cur) =>
    -- inside a fully exempt block: discard, leaving the block when the
    -- stripped line is "!" (lines 36-39)
    ((!(pyStrip line == "!"), cur), false)
  | (false, cur) =>
    if isHeader line then
      -- header: reset line exemptions, look up the first matching rule
      -- (lines 43-58), then apply the line-level check (lines 60-72)
      match ruleLookup rules line with
      | some (.strVal s) =>
        if s == "*" then ((true, []), false)
        else ((false, []), emitCheck [] line)
      | some (.listVal pats) => ((false, pats), emitCheck pats line)
      | some .otherVal => ((false, []), emitCheck [] line)
      | none => ((false, []), emitCheck [] line)
    else ((false, cur), emitCheck cur line)

/-- The whole loop of lines 34-72 from a given state. -/
def applyAux (rules : List (String × RuleVal)) : List String → FilterState → List String
  | [], _ => []
  | line :: rest, st =>
    match lineStep rules st line with
    | (st', emit) => (if emit then [line] else []) ++ applyAux rules rest st'

/-- `apply_exemptions` on a list of config lines and a well-typed rule
dict (`src/main.py` lines 30-74). -/
def apply_exemptions_core (config_list : List String)
    (exemption_rules : List (String × RuleVal)) : List String :=
  applyAux exemption_rules config_list (false, [])

/-- The suffix of the document after the `!` terminator consumed while
inside a fully exempt block (everything up to and including the first
line whose stripped form is `!` is discarded, lines 36-39). -/
def afterBang : List String → List String
  | [] => []
  | l :: rest => if pyStrip l == "!" then rest else afterBang rest

/-- A header whose first matching rule is a line-pattern list survives its
own line patterns (non-headers and headers with other rule outcomes are
unconstrained). -/
def headerSelfSafe (rules : List (String × RuleVal)) (line : String) : Bool :=
  !isHeader line ||
    (match ruleLookup rules line with
     | some (.listVal pats) => emitCheck pats line
     | _ => true)

/-- Every line of the document is `headerSelfSafe`. -/
def allHeadersSafe (rules : List (String × RuleVal)) (d : List String) : Bool :=
  d.all (headerSelfSafe rules)

/-- Any line whose stripped form is `!` is immediately followed by a
header (or ends the document): block-terminator lines are not followed by
indented orphan lines. -/
def bangOk : List String → Bool
  | [] => true
  | [_] => true
  | x :: y :: rest => (!(pyStrip x == "!") || isHeader y) && bangOk (y :: rest)

/-- The document is empty or starts with a header line. -/
def headedOk : List String → Bool
  | [] => true
  | l :: _ => isHeader l

/-! ## JSON values

Python values produced by `json.load` / consumed by `json.dumps`: `None`,
booleans, integers, strings, lists and dicts.  Dicts are modelled as
association lists in insertion order; a dict produced by `json.load` never
has duplicate keys, which theorems assume through `wellKeyed` where it
matters.  (Floats are outside the model; the repository's documents are
text-line configs.) -/

inductive JVal where
  | null
  | bool (b : Bool)
  | num (n : Int)
  | str (s : String)
  | arr (xs : List JVal)
  | obj (kvs : List (String × JVal))

mutual

/-- Structural equality of `JVal` (auxiliary for the decidable instance). -/
def jvalBEq : JVal → JVal → Bool
  | .null, .null => true
  | .bool a, .bool b => a == b
  | .num n, .num m => n == m
  | .str s, .str t => s == t
  | .arr xs, .arr ys => jlistBEq xs ys
  | .obj ps, .obj qs => jpairsBEq ps qs
  | _, _ => false

def jlistBEq : List JVal → List JVal → Bool
  | [], [] => true
  | x :: xs, y :: ys => jvalBEq x y && jlistBEq xs ys
  | _, _ => false

def jpairsBEq : List (String × JVal) → List (String × JVal) → Bool
  | [], [] => true
  | (k, v) :: ps, (l, w) :: qs => k == l && jvalBEq v w && jpairsBEq ps qs
  | _, _ => false

end

/-- `config_list` is a Python list (`isinstance(config_list, list)`). -/
def JVal.isList : JVal → Bool
  | .arr _ => true
  | _ => false

/-- `exemption_rules` is a Python dict (`isinstance(exemption_rules, dict)`). -/
def JVal.isDict : JVal → Bool
  | .obj _ => true
  | _ => false

/-- Interpret a JSON list element as a config line (Python would raise
`AttributeError` on `line.strip()` for non-strings). -/
def jvalAsString : JVal → Option String
  | .str s => some s
  | _ => none

/-- All elements as strings, or `none` when some element is not a string. -/
def jvalStringList : List JVal → Option (List String)
  | [] => some []
  | v :: vs =>
    match jvalAsString v, jvalStringList vs with
    | some s, some ss => some (s :: ss)
    | _, _ => none

/-- Classify a rule value: the string `"*"` comparison and `isinstance(rules,
list)` checks of lines 49-54.  A list containing a non-string pattern would
make `fnmatch` raise when consulted; the model rejects such rule sets up
front (no claim depends on that corner). -/
def jvalAsRuleVal : JVal → Option RuleVal
  | .str s => some (.strVal s)
  | .arr xs =>
    match jvalStringList xs with
    | some pats => some (.listVal pats)
    | none => none
  | _ => some .otherVal

/-- Convert a JSON dict to a rule list, keeping insertion order. -/
def jvalRuleList : List (String × JVal) → Option (List (String × RuleVal))
  | [] => some []
  | (k, v) :: kvs =>
    match jvalAsRuleVal v, jvalRuleList kvs with
    | some rv, some rest => some ((k, rv) :: rest)
    | _, _ => none

/-- `apply_exemptions(config_list, exemption_rules)` on arbitrary Python
values (`src/main.py` lines 20-74): when the first argument is not a list
or the second is not a dict, the first argument is returned unchanged
(lines 27-28); otherwise the filter runs.  `none` models a raising
execution (non-string lines or patterns). -/
def apply_exemptions (config_list exemption_rules : JVal) : Option JVal :=
  match config_list, exemption_rules with
  | .arr items, .obj kvs =>
    match jvalStringList items, jvalRuleList kvs with
    | some lines, some rules =>
      some (.arr ((apply_exemptions_core lines rules).map .str))
    | _, _ => none
  | c, _ => some c

/-! ## Canonicalization and Python equality of JSON values

`json.dumps(..., sort_keys=True)` sorts every dict's items by key
(CPython compares the `(key, value)` tuples, but keys of a dict are
distinct so only keys are ever compared).  Both string comparison in
Python and `String` order in Lean are lexicographic by code point.
`norm` recursively sorts all dict entry lists and is otherwise the
identity, so serializing with sorted keys equals serializing the
normalized value.  Python `==` on JSON values (order-insensitive on
dicts without duplicate keys) coincides with structural equality of the
normalized values; `pyEq` models the `config_a == config_b` check of
`compare_configs` (line 81). -/

/-- Lexicographic order on character lists (Python string `<` by code
point). -/
def charListLt : List Char → List Char → Bool
  | _, [] => false
  | [], _ :: _ => true
  | a :: as, b :: bs => a < b || (a == b && charListLt as bs)

/-- Python string `<=` by code point. -/
def keyLe (a b : String) : Bool := !charListLt b.data a.data

/-- Stable insertion into a key-sorted association list. -/
def insertByKey (p : String × JVal) : List (String × JVal) → List (String × JVal)
  | [] => [p]
  | q :: qs => if keyLe p.1 q.1 then p :: q :: qs else q :: insertByKey p qs

/-- Stable sort of dict items by key (Python `sorted(dct.items())` on
distinct keys). -/
def sortKeys : List (String × JVal) → List (String × JVal)
  | [] => []
  | p :: ps => insertByKey p (sortKeys ps)

mutual

/-- Recursively sort every dict's entries by key; identity otherwise. -/
def JVal.norm : JVal → JVal
  | .null => .null
  | .bool b => .bool b
  | .num n => .num n
  | .str s => .str s
  | .arr xs => .arr (jlistNorm xs)
  | .obj kvs => .obj (sortKeys (jpairsNorm kvs))

def jlistNorm : List JVal → List JVal
  | [] => []
  | x :: xs => x.norm :: jlistNorm xs

def jpairsNorm : List (String × JVal) → List (String × JVal)
  | [] => []
  | (k, v) :: ps => (k, v.norm) :: jpairsNorm ps

end

/-- Python `==` between two JSON documents (insertion order of dict keys
is irrelevant; duplicate keys cannot occur in a Python dict). -/
def pyEq (a b : JVal) : Bool := jvalBEq a.norm b.norm

mutual

/-- Every dict in the value has pairwise-distinct keys (always true of
values produced by `json.load`). -/
def JVal.wellKeyed : JVal → Bool
  | .null => true
  | .bool _ => true
  | .num _ => true
  | .str _ => true
  | .arr xs => jlistWellKeyed xs
  | .obj kvs => decide (kvs.map Prod.fst).Nodup && jpairsWellKeyed kvs

def jlistWellKeyed : List JVal → Bool
  | [] => true
  | x :: xs => x.wellKeyed && jlistWellKeyed xs

def jpairsWellKeyed : List (String × JVal) → Bool
  | [] => true
  | (_, v) :: ps => v.wellKeyed && jpairsWellKeyed ps

end

mutual

/-- `Reord a b`: `b` is a representation of `a` whose dict entries may
appear in a different insertion order (recursively). -/
inductive Reord : JVal → JVal → Prop where
  | null : Reord .null .null
  | bool (b : Bool) : Reord (.bool b) (.bool b)
  | num (n : Int) : Reord (.num n) (.num n)
  | str (s : String) : Reord (.str s) (.str s)
  | arr {xs ys : List JVal} : ReordList xs ys → Reord (.arr xs) (.arr ys)
  | obj {kvs mid out : List (String × JVal)} :
      ReordPairs kvs mid → mid.Perm out → Reord (.obj kvs) (.obj out)

inductive ReordList : List JVal → List JVal → Prop where
  | nil : ReordList [] []
  | cons {x y : JVal} {xs ys : List JVal} :
      Reord x y → ReordList xs ys → ReordList (x :: xs) (y :: ys)

inductive ReordPairs : List (String × JVal) → List (String × JVal) → Prop where
  | nil : ReordPairs [] []
  | cons {k : String} {v w : JVal} {ps qs : List (String × JVal)} :
      Reord v w → ReordPairs ps qs → ReordPairs ((k, v) :: ps) ((k, w) :: qs)

end

/-! ## `json.dumps(v, indent=2, sort_keys=True).splitlines()`

(`src/main.py` lines 87-88.)  Diffing operates on lines; a line is
modelled as a `List Char` (string escaping guarantees no newline occurs
inside a line, so producing the line list directly models
`dumps(...).splitlines()`).  Serialization of `v` with sorted keys equals
plain serialization of `v.norm`. -/

abbrev Line := List Char

/-- A decimal digit character. -/
def digitChar : Nat → Char
  | 0 => '0'
  | 1 => '1'
  | 2 => '2'
  | 3 => '3'
  | 4 => '4'
  | 5 => '5'
  | 6 => '6'
  | 7 => '7'
  | 8 => '8'
  | _ => '9'

/-- Decimal digits, most significant first; the fuel (one division by ten
per step) makes the recursion structural. -/
def natCharsFuel : Nat → Nat → Line
  | 0, _ => []
  | fuel + 1, n => if n < 10 then [digitChar n] else natCharsFuel fuel (n / 10) ++ [digitChar (n % 10)]

/-- Decimal digits of a natural number (Python `str(n)` for `n ≥ 0`). -/
def natChars (n : Nat) : Line := natCharsFuel (n + 1) n

/-- Python `repr` of an integer, as emitted by `json.dumps`. -/
def intChars (n : Int) : Line :=
  if n < 0 then '-' :: natChars n.natAbs else natChars n.toNat

/-- Lowercase hex digit. -/
def hexDigit (n : Nat) : Char :=
  if n < 10 then Char.ofNat (48 + n) else Char.ofNat (87 + n)

/-- Four-digit lowercase hex, as in a JSON `\uXXXX` escape. -/
def hex4 (n : Nat) : Line :=
  [hexDigit (n / 4096 % 16), hexDigit (n / 256 % 16), hexDigit (n / 16 % 16), hexDigit (n % 16)]

/-- JSON escaping of one character with `ensure_ascii=True`: printable
ASCII except `"` and `\` is literal, the usual short escapes apply, and
everything else becomes `\uXXXX` (a surrogate pair above U+FFFF). -/
def escapeChar (c : Char) : Line :=
  if c == '"' then ['\\', '"']
  else if c == '\\' then ['\\', '\\']
  else if c == '\n' then ['\\', 'n']
  else if c == '\t' then ['\\', 't']
  else if c == '\r' then ['\\', 'r']
  else if c == '\x08' then ['\\', 'b']
  else if c == '\x0c' then ['\\', 'f']
  else if c.val < 32 || c.val > 126 then
    if c.val ≥ 65536 then
      let v := c.toNat - 65536
      '\\' :: 'u' :: hex4 (55296 + v / 1024) ++ '\\' :: 'u' :: hex4 (56320 + v % 1024)
    else '\\' :: 'u' :: hex4 c.toNat
  else [c]

/-- JSON string literal for `s`. -/
def quoteChars (s : String) : Line := '"' :: (s.data.flatMap escapeChar) ++ ['"']

/-- Append a character to the last line of a block (the `,` separator
`json.dumps` places after every entry but the last). -/
def appendLast : List Line → Char → List Line
  | [], _ => []
  | [l], c => [l ++ [c]]
  | l :: ls, c => l :: appendLast ls c

mutual

/-- Lines of the serialization of a value whose dicts are already sorted:
`pre` is the prefix of the first line (outer indentation plus any `"key": `
part), `ind` the indentation of the closing bracket line. -/
def serVal : JVal → Line → Line → List Line
  | .null, pre, _ => [pre ++ ['n', 'u', 'l', 'l']]
  | .bool true, pre, _ => [pre ++ ['t', 'r', 'u', 'e']]
  | .bool false, pre, _ => [pre ++ ['f', 'a', 'l', 's', 'e']]
  | .num n, pre, _ => [pre ++ intChars n]
  | .str s, pre, _ => [pre ++ quoteChars s]
  | .arr xs, pre, ind =>
    match xs with
    | [] => [pre ++ ['[', ']']]
    | _ :: _ => (pre ++ ['[']) :: serItems xs (ind ++ [' ', ' ']) ++ [ind ++ [']']]
  | .obj kvs, pre, ind =>
    match kvs with
    | [] => [pre ++ ['{', '}']]
    | _ :: _ => (pre ++ ['{']) :: serEntries kvs (ind ++ [' ', ' ']) ++ [ind ++ ['}']]

/-- Array elements at indentation `ind`, comma after each but the last. -/
def serItems : List JVal → Line → List Line
  | [], _ => []
  | [x], ind => serVal x ind ind
  | x :: y :: ys, ind => appendLast (serVal x ind ind) ',' ++ serItems (y :: ys) ind

/-- Dict entries at indentation `ind`, comma after each but the last. -/
def serEntries : List (String × JVal) → Line → List Line
  | [], _ => []
  | [(k, v)], ind => serVal v (ind ++ quoteChars k ++ [':', ' ']) ind
  | (k, v) :: q :: ps, ind =>
    appendLast (serVal v (ind ++ quoteChars k ++ [':', ' ']) ind) ',' ++ serEntries (q :: ps) ind

end

/-- `json.dumps(v, indent=2, sort_keys=True).splitlines()`. -/
def dumpsLines (v : JVal) : List Line := serVal v.norm [] []

mutual

/-- Number of serialized lines of a (normalized) value, independent of
position. -/
def numLines : JVal → Nat
  | .null => 1
  | .bool _ => 1
  | .num _ => 1
  | .str _ => 1
  | .arr xs =>
    match xs with
    | [] => 1
    | _ :: _ => 2 + numLinesItems xs
  | .obj kvs =>
    match kvs with
    | [] => 1
    | _ :: _ => 2 + numLinesEntries kvs

def numLinesItems : List JVal → Nat
  | [] => 0
  | x :: xs => numLines x + numLinesItems xs

def numLinesEntries : List (String × JVal) → Nat
  | [] => 0
  | (_, v) :: ps => numLines v + numLinesEntries ps

end

/-! ## `difflib.unified_diff` (used by `compare_configs`, line 89)

Model of CPython `difflib.SequenceMatcher(None, a, b)` followed by
`unified_diff(a, b, fromfile, tofile, lineterm='')`.  With `isjunk=None`
the junk set is empty, so only the `autojunk` popularity heuristic
affects `b2j`: when `len(b) >= 200`, elements occurring more than
`len(b) // 100 + 1` times are dropped from `b2j` (they can still be
matched by the extension loops of `find_longest_match`, which with an
empty junk set extend over any equal elements). -/

/-- Ascending positions of `x` in `b` (the `b2j` entry before autojunk). -/
def indexesOf (x : Line) (b : List Line) : List Nat :=
  (b.enum.filter (fun p => p.2 == x)).map Prod.fst

/-- `b2j` with the autojunk popularity filter. -/
def b2j (b : List Line) (x : Line) : List Nat :=
  let idxs := indexesOf x b
  if b.length ≥ 200 && decide (idxs.length > b.length / 100 + 1) then [] else idxs

/-- Running best block of `find_longest_match`. -/
structure FlmBest where
  besti : Nat
  bestj : Nat
  bestsize : Nat
deriving DecidableEq

/-- Inner loop of `find_longest_match` over the `b2j` positions of `a[i]`
(ascending), threading the previous row `j2len` and building the new row.
`continue`/`break` on a sorted position list amount to keeping the
positions in `[blo, bhi)`. -/
def flmRow (blo bhi i : Nat) (j2len : Nat → Nat) :
    List Nat → (Nat → Nat) → FlmBest → ((Nat → Nat) × FlmBest)
  | [], newj2len, best => (newj2len, best)
  | j :: js, newj2len, best =>
    if blo ≤ j ∧ j < bhi then
      let k := (if j = 0 then 0 else j2len (j - 1)) + 1
      let newj2len' : Nat → Nat := fun x => if x = j then k else newj2len x
      let best' := if k > best.bestsize then ⟨i + 1 - k, j + 1 - k, k⟩ else best
      flmRow blo bhi i j2len js newj2len' best'
    else flmRow blo bhi i j2len js newj2len best

/-- Outer loop of `find_longest_match` over `i ∈ [alo, ahi)`. -/
def flmRows (a : List Line) (bj : Line → List Nat) (blo bhi : Nat) :
    List Nat → (Nat → Nat) → FlmBest → FlmBest
  | [], _, best => best
  | i :: is, j2len, best =>
    match flmRow blo bhi i j2len (bj (a.getD i [])) (fun _ => 0) best with
    | (new, best') => flmRows a bj blo bhi is new best'

/-- Backward extension loop (`while besti > alo and bestj > blo and
a[besti-1] == b[bestj-1]`); the counter bounds the iterations and the
guard is the loop condition. -/
def extendBack (a b : List Line) (alo blo : Nat) : Nat → FlmBest → FlmBest
  | 0, best => best
  | n + 1, best =>
    if best.besti > alo ∧ best.bestj > blo ∧
        a.getD (best.besti - 1) [] == b.getD (best.bestj - 1) [] then
      extendBack a b alo blo n ⟨best.besti - 1, best.bestj - 1, best.bestsize + 1⟩
    else best

/-- Forward extension loop. -/
def extendFwd (a b : List Line) (ahi bhi : Nat) : Nat → FlmBest → FlmBest
  | 0, best => best
  | n + 1, best =>
    if best.besti + best.bestsize < ahi ∧ best.bestj + best.bestsize < bhi ∧
        a.getD (best.besti + best.bestsize) [] == b.getD (best.bestj + best.bestsize) [] then
      extendFwd a b ahi bhi n ⟨best.besti, best.bestj, best.bestsize + 1⟩
    else best

/-- `SequenceMatcher.find_longest_match(alo, ahi, blo, bhi)` with an empty
junk set (the two junk-extension loops are no-ops). -/
def find_longest_match (a b : List Line) (bj : Line → List Nat) (alo ahi blo bhi : Nat) :
    FlmBest :=
  let best0 := flmRows a bj blo bhi (List.range' alo (ahi - alo)) (fun _ => 0) ⟨alo, blo, 0⟩
  let best1 := extendBack a b alo blo best0.besti best0
  extendFwd a b ahi bhi ahi best1

/-- The recursive block collection of `get_matching_blocks`.  CPython uses
an explicit queue and sorts the collected blocks afterwards; since the
left sub-range's blocks all precede the match, which precedes the right
sub-range's blocks, in-order recursion produces the sorted list directly.
The fuel (instantiated with `len(a) + len(b)`, which bounds the recursion
depth) makes the recursion structural. -/
def matching_blocks_rec (a b : List Line) (bj : Line → List Nat) :
    Nat → Nat → Nat → Nat → Nat → List (Nat × Nat × Nat)
  | 0, _, _, _, _ => []
  | fuel + 1, alo, ahi, blo, bhi =>
    let m := find_longest_match a b bj alo ahi blo bhi
    if m.bestsize = 0 then []
    else
      (if alo < m.besti ∧ blo < m.bestj then
        matching_blocks_rec a b bj fuel alo m.besti blo m.bestj
      else []) ++
      (m.besti, m.bestj, m.bestsize) ::
      (if m.besti + m.bestsize < ahi ∧ m.bestj + m.bestsize < bhi then
        matching_blocks_rec a b bj fuel (m.besti + m.bestsize) ahi (m.bestj + m.bestsize) bhi
      else [])

/-- The adjacency-merging pass of `get_matching_blocks` (accumulator
`(i1, j1, k1)` starts at `(0, 0, 0)`). -/
def merge_blocks : Nat × Nat × Nat → List (Nat × Nat × Nat) → List (Nat × Nat × Nat)
  | (i1, j1, k1), [] => if k1 ≠ 0 then [(i1, j1, k1)] else []
  | (i1, j1, k1), (i2, j2, k2) :: rest =>
    if i1 + k1 = i2 ∧ j1 + k1 = j2 then merge_blocks (i1, j1, k1 + k2) rest
    else (if k1 ≠ 0 then [(i1, j1, k1)] else []) ++ merge_blocks (i2, j2, k2) rest

/-- `SequenceMatcher.get_matching_blocks()`, with the `(la, lb, 0)`
sentinel. -/
def get_matching_blocks (a b : List Line) : List (Nat × Nat × Nat) :=
  merge_blocks (0, 0, 0)
    (matching_blocks_rec a b (b2j b) (a.length + b.length) 0 a.length 0 b.length) ++
  [(a.length, b.length, 0)]

/-- Opcode tags of `get_opcodes`. -/
inductive OpTag where
  | replace
  | delete
  | insert
  | equal
deriving DecidableEq

/-- One `(tag, i1, i2, j1, j2)` opcode. -/
structure Opcode where
  tag : OpTag
  i1 : Nat
  i2 : Nat
  j1 : Nat
  j2 : Nat
deriving DecidableEq

/-- The opcode construction loop of `get_opcodes`. -/
def opcodesLoop : Nat → Nat → List (Nat × Nat × Nat) → List Opcode
  | _, _, [] => []
  | i, j, (ai, bj, size) :: rest =>
    (if i < ai ∧ j < bj then [⟨.replace, i, ai, j, bj⟩]
     else if i < ai then [⟨.delete, i, ai, j, bj⟩]
     else if j < bj then [⟨.insert, i, ai, j, bj⟩]
     else []) ++
    (if size ≠ 0 then [⟨.equal, ai, ai + size, bj, bj + size⟩] else []) ++
    opcodesLoop (ai + size) (bj + size) rest

/-- `SequenceMatcher.get_opcodes()`. -/
def get_opcodes (a b : List Line) : List Opcode := opcodesLoop 0 0 (get_matching_blocks a b)

/-- Trim a leading equal opcode to `n` lines of context. -/
def trimHead (n : Nat) : List Opcode → List Opcode
  | [] => []
  | c :: rest =>
    if c.tag = .equal then
      ⟨c.tag, max c.i1 (c.i2 - n), c.i2, max c.j1 (c.j2 - n), c.j2⟩ :: rest
    else c :: rest

/-- Trim a trailing equal opcode to `n` lines of context. -/
def trimTail (n : Nat) : List Opcode → List Opcode
  | [] => []
  | [c] =>
    if c.tag = .equal then
      [⟨c.tag, c.i1, min c.i2 (c.i1 + n), c.j1, min c.j2 (c.j1 + n)⟩]
    else [c]
  | c :: d :: rest => c :: trimTail n (d :: rest)

/-- The final `yield` of `get_grouped_opcodes`: the pending group is
dropped when empty or a single equal opcode. -/
def keepFinalGroup : List Opcode → List (List Opcode)
  | [] => []
  | [c] => if c.tag = .equal then [] else [[c]]
  | c :: d :: rest => [c :: d :: rest]

/-- The grouping loop of `get_grouped_opcodes`: a big equal opcode
(`i2 - i1 > 2n`) closes the current group with `n` leading context lines
and opens the next with `n` trailing context lines. -/
def groupLoop (n : Nat) (group : List Opcode) : List Opcode → List (List Opcode)
  | [] => keepFinalGroup group
  | c :: rest =>
    if c.tag = .equal ∧ c.i2 - c.i1 > n + n then
      (group ++ [⟨.equal, c.i1, min c.i2 (c.i1 + n), c.j1, min c.j2 (c.j1 + n)⟩]) ::
        groupLoop n [⟨.equal, max c.i1 (c.i2 - n), c.i2, max c.j1 (c.j2 - n), c.j2⟩] rest
    else groupLoop n (group ++ [c])  rest

/-- `SequenceMatcher.get_grouped_opcodes(n)`. -/
def get_grouped_opcodes (a b : List Line) (n : Nat) : List (List Opcode) :=
  let codes0 := get_opcodes a b
  let codes1 := if codes0 = [] then [⟨.equal, 0, 1, 0, 1⟩] else codes0
  groupLoop n [] (trimTail n (trimHead n codes1))

/-- `difflib._format_range_unified`. -/
def formatRangeUnified (start stop : Nat) : Line :=
  let beginning := start + 1
  let length := stop - start
  if length = 1 then natChars beginning
  else natChars (if length = 0 then beginning - 1 else beginning) ++ ',' :: natChars length

/-- Python slice `l[i:j]`. -/
def pySlice (l : List Line) (i j : Nat) : List Line := (l.drop i).take (j - i)

/-- The content lines `unified_diff` emits for one opcode. -/
def opcodeLines (a b : List Line) (c : Opcode) : List Line :=
  match c.tag with
  | .equal => (pySlice a c.i1 c.i2).map (fun l => ' ' :: l)
  | .delete => (pySlice a c.i1 c.i2).map (fun l => '-' :: l)
  | .insert => (pySlice b c.j1 c.j2).map (fun l => '+' :: l)
  | .replace =>
    (pySlice a c.i1 c.i2).map (fun l => '-' :: l) ++
    (pySlice b c.j1 c.j2).map (fun l => '+' :: l)

/-- The `@@ -r +r @@` line of one group (groups are nonempty whenever this
is reached). -/
def hunkHeader (g : List Opcode) : Line :=
  let f := g.headD ⟨.equal, 0, 0, 0, 0⟩
  let l := g.getLastD ⟨.equal, 0, 0, 0, 0⟩
  '@' :: '@' :: ' ' :: '-' :: formatRangeUnified f.i1 l.i2 ++
    ' ' :: '+' :: formatRangeUnified f.j1 l.j2 ++ [' ', '@', '@']

/-- `list(difflib.unified_diff(a, b, fromfile, tofile, lineterm=''))`:
the two `---`/`+++` header lines are emitted once, before the first
group, and only if some group exists. -/
def unified_diff (a b : List Line) (fromfile tofile : Line) : List Line :=
  let groups := get_grouped_opcodes a b 3
  if groups.isEmpty then []
  else
    ('-' :: '-' :: '-' :: ' ' :: fromfile) ::
    ('+' :: '+' :: '+' :: ' ' :: tofile) ::
    groups.flatMap (fun g => hunkHeader g :: g.flatMap (opcodeLines a b))

/-- The `additions` count of `compare_configs` (line 91): lines starting
with `+` but not `+++`. -/
def countAdditions (diff : List Line) : Nat :=
  (diff.filter (fun l => ['+'].isPrefixOf l && !(['+', '+', '+'].isPrefixOf l))).length

/-- The `removals` count of `compare_configs` (line 92). -/
def countRemovals (diff : List Line) : Nat :=
  (diff.filter (fun l => ['-'].isPrefixOf l && !(['-', '-', '-'].isPrefixOf l))).length

/-! Auxiliary observables over diff data used in the analysis of the
counts. -/

/-- A rendered-content line is nonempty and does not start with `+` (true
of every `json.dumps` output line: lines start with indentation, a
bracket, a quote, a digit, a minus sign or a keyword). -/
def goodLine (l : Line) : Bool := !(['+'].isPrefixOf l) && !l.isEmpty

/-- Opcode sanity relative to sequence lengths: extents end within the
sequences and a delete opcode spans no `b` lines. -/
def OpWithin (la lb : Nat) (op : Opcode) : Prop :=
  op.i2 ≤ la ∧ op.j2 ≤ lb ∧ (op.tag = OpTag.delete → op.j1 = op.j2)

/-- Total `a`-extent of a list of opcodes. -/
def opSumI (ops : List Opcode) : Nat := (ops.map (fun o => o.i2 - o.i1)).sum

/-- Total `b`-extent of a list of opcodes. -/
def opSumJ (ops : List Opcode) : Nat := (ops.map (fun o => o.j2 - o.j1)).sum

/-- `a`-extent of the equal opcodes. -/
def opEqSumI (ops : List Opcode) : Nat :=
  ((ops.filter (fun o => o.tag == OpTag.equal)).map (fun o => o.i2 - o.i1)).sum

/-- `b`-extent of the equal opcodes. -/
def opEqSumJ (ops : List Opcode) : Nat :=
  ((ops.filter (fun o => o.tag == OpTag.equal)).map (fun o => o.j2 - o.j1)).sum

/-- `b`-extent of the non-equal opcodes: the number of `+` content lines
they render. -/
def opAddJ (ops : List Opcode) : Nat :=
  ((ops.filter (fun o => !(o.tag == OpTag.equal))).map (fun o => o.j2 - o.j1)).sum

/-- `a`-extent of the non-equal opcodes: the number of `-` content lines
they render. -/
def opRemI (ops : List Opcode) : Nat :=
  ((ops.filter (fun o => !(o.tag == OpTag.equal))).map (fun o => o.i2 - o.i1)).sum

/-- Sum of `opAddJ` over the hunk groups. -/
def groupsAddJ (gs : List (List Opcode)) : Nat := (gs.map opAddJ).sum

/-- The matching blocks, read left to right from `(i0, j0)`, are
monotonically ordered and end within `ahi`/`bhi`. -/
def BlocksWithin : Nat → Nat → List (Nat × Nat × Nat) → Nat → Nat → Prop
  | _, _, [], _, _ => True
  | i0, j0, (i, j, k) :: rest, ahi, bhi =>
    i0 ≤ i ∧ j0 ≤ j ∧ i + k ≤ ahi ∧ j + k ≤ bhi ∧ BlocksWithin (i + k) (j + k) rest ahi bhi

/-- As `BlocksWithin`, but the walk ends exactly at `(la, lb)` (the shape
`get_matching_blocks` guarantees thanks to its sentinel). -/
def ChainTo : Nat → Nat → List (Nat × Nat × Nat) → Nat → Nat → Prop
  | i0, j0, [], la, lb => i0 = la ∧ j0 = lb
  | i0, j0, (i, j, k) :: rest, la, lb => i0 ≤ i ∧ j0 ≤ j ∧ ChainTo (i + k) (j + k) rest la lb

/-- Bounds invariant of `find_longest_match` results. -/
def FlmInv (alo ahi blo bhi : Nat) (m : FlmBest) : Prop :=
  alo ≤ m.besti ∧ blo ≤ m.bestj ∧ m.besti + m.bestsize ≤ ahi ∧ m.bestj + m.bestsize ≤ bhi

/-- Observable outcome of `compare_configs`: `different` is the return
value (`True` when the configurations differ), `diff`, `additions` and
`removals` are the rendered diff and its counts (empty/zero on the early
`return False` path, where no diff is computed). -/
structure CompareResult where
  different : Bool
  diff : List Line
  additions : Nat
  removals : Nat
deriving DecidableEq

/-- `compare_configs(config_a, config_b, ...)` (`src/main.py` lines
76-112). -/
def compare_configs (config_a config_b : JVal) (from_file to_file : Line) : CompareResult :=
  if pyEq config_a config_b then
    { different := false, diff := [], additions := 0, removals := 0 }
  else
    let aLines := dumpsLines config_a
    let bLines := dumpsLines config_b
    let d := unified_diff aLines bLines from_file to_file
    { different := true, diff := d, additions := countAdditions d, removals := countRemovals d }

/-! ## Token lifecycle manager (`src/aruba_central_api.py`)

State passing model: the token store is the content of `token.json`
(`_load_token_data` returns `{}` on a missing or corrupt file, modelled by
the all-absent record).  The HTTP transport is an oracle giving, per grant
type, either the parsed JSON response or a `requests.RequestException`
(any transport/HTTP error, including `raise_for_status`).  Each run
performs at most one exchange per grant type, so a fixed oracle per grant
type captures a run exactly.  Python truthiness of the consulted fields is
modelled explicitly (`None`/absent and `""` are falsy for strings,
`None`/absent and `0` for the numeric timestamp). -/

/-- Truthiness of an optional string field (`token_data.get(...)`). -/
def truthyS : Option String → Bool
  | none => false
  | some s => !(s == "")

/-- Truthiness of the optional numeric `timestamp` field. -/
def truthyI : Option Int → Bool
  | none => false
  | some n => !(n == 0)

/-- Content of `token.json" as written/read by `_save_token_data` /
`_load_token_data`. -/
structure TokenData where
  access_token : Option String := none
  refresh_token : Option String := none
  timestamp : Option Int := none
  client_id : Option String := none
  client_secret : Option String := none
deriving DecidableEq

/-- Parsed JSON body of a successful `POST /oauth2/token` (the code only
reads `access_token` and `refresh_token`, via `.get`). -/
structure TokenResponse where
  access_token : Option String := none
  refresh_token : Option String := none
deriving DecidableEq

/-- Result of one `requests.post` to the token endpoint: parsed JSON, or a
`requests.RequestException` (transport or HTTP error). -/
inductive ExchangeResult where
  | ok (resp : TokenResponse)
  | err
deriving DecidableEq

/-- One network exchange performed by the manager, by grant type. -/
inductive Exchange where
  | refreshGrant (refresh_token : String)
  | clientCredentialsGrant
deriving DecidableEq

/-- Environment of a run: configured credentials, current time, and the
transport oracle for each grant type. -/
structure ApiEnv where
  client_id : Option String
  client_secret : Option String
  now : Int
  refreshResult : ExchangeResult
  clientCredentialsResult : ExchangeResult

/-- Outcome of a token-manager call: the returned access token (or `None`),
the token store after the call, and the exchanges performed in order. -/
structure RunResult where
  token : Option String
  store : TokenData
  calls : List Exchange
deriving DecidableEq

/-- `_save_token_data` (lines 75-85): overwrite the store with the response
fields, the current time and the configured credentials. -/
def save_token_data (env : ApiEnv) (resp : TokenResponse) : TokenData :=
  { access_token := resp.access_token
    refresh_token := resp.refresh_token
    timestamp := some env.now
    client_id := env.client_id
    client_secret := env.client_secret }

/-- `_authenticate_new_token` (lines 108-124): one client-credentials
exchange; on success save and return the access token, on failure return
`None` without touching the store. -/
def authenticate_new_token (env : ApiEnv) (store : TokenData) : RunResult :=
  match env.clientCredentialsResult with
  | .ok resp =>
    { token := resp.access_token
      store := save_token_data env resp
      calls := [.clientCredentialsGrant] }
  | .err =>
    { token := none
      store := store
      calls := [.clientCredentialsGrant] }

/-- `_refresh_token` (lines 87-106): one refresh exchange; on success save
and return, on any `RequestException` fall back to
`_authenticate_new_token` (line 106) unconditionally. -/
def refresh_token (env : ApiEnv) (store : TokenData) (rt : String) : RunResult :=
  match env.refreshResult with
  | .ok resp =>
    { token := resp.access_token
      store := save_token_data env resp
      calls := [.refreshGrant rt] }
  | .err =>
    let r := authenticate_new_token env store
    { token := r.token
      store := r.store
      calls := .refreshGrant rt :: r.calls }

/-- `_get_access_token` (lines 34-65). -/
def get_access_token (env : ApiEnv) (store : TokenData) : RunResult :=
  if truthyS store.access_token && truthyI store.timestamp &&
      decide (env.now - store.timestamp.getD 0 < 7200) then
    -- Case 1 (lines 44-48): fresh cached token, no network call
    { token := store.access_token, store := store, calls := [] }
  else if truthyS store.refresh_token then
    -- Case 2 (lines 52-57)
    refresh_token env store (store.refresh_token.getD "")
  else if !truthyS env.client_id || !truthyS env.client_secret then
    -- Case 3 guard (lines 60-62)
    { token := none, store := store, calls := [] }
  else
    -- Case 3 (lines 64-65)
    authenticate_new_token env store

/-!
# Theorems

Claims C1-C10 of the specification, with supporting lemmas.
-/

/-! ## Supporting lemmas: the exemption filter -/

/-- The filter only ever discards lines: from any state its output is a
subsequence of its input. -/
theorem applyAux_sublist (rules : List (String × RuleVal)) :
    ∀ (d : List String) (st : FilterState), (applyAux rules d st).Sublist d := by
  intro d
  induction d with
  | nil => intro st; simp [applyAux]
  | cons l rest ih =>
    intro st
    simp only [applyAux]
    rcases lineStep rules st l with ⟨st', e⟩
    cases e with
    | false => simpa using List.Sublist.cons l (ih st')
    | true => simpa using List.Sublist.cons₂ l (ih st')

/-! ## C9 -/

/-- C9 (confirmed): for every input list of lines and every rule set, the
output of `apply_exemptions` is a subsequence of the input: every emitted
line is a line of the input, appears unmodified, and emitted lines
preserve the input's relative order; the filter never adds, rewrites, or
reorders lines. -/
theorem apply_exemptions_output_sublist (d : List String)
    (r : List (String × RuleVal)) : (apply_exemptions_core d r).Sublist d :=
  applyAux_sublist r d (false, [])

/-! ## C10 -/

/-- C10 (confirmed): if the config argument to `apply_exemptions` is not a
list, or the rules argument is not a dict, `apply_exemptions` returns its
first argument unchanged without applying any filtering and without
raising (lines 27-28). -/
theorem apply_exemptions_non_list_or_dict_identity (c r : JVal)
    (h : c.isList = false ∨ r.isDict = false) : apply_exemptions c r = some c := by
  cases c <;> cases r <;> simp_all [JVal.isList, JVal.isDict, apply_exemptions]

/-- Witness for C10 at a concrete non-list config value. -/
theorem apply_exemptions_non_list_or_dict_identity_witness :
    apply_exemptions (.str "hostname sw1") (.obj [("interface *", .str "*")]) =
      some (.str "hostname sw1") :=
  apply_exemptions_non_list_or_dict_identity (.str "hostname sw1")
    (.obj [("interface *", .str "*")]) (Or.inl rfl)

/-! ## C4 -/

/-- C4 counterexample: a header line (`"snmp-server host"`, no leading
whitespace) whose first matching rule value is a list of line patterns is
nevertheless discarded, because lines 60-69 apply the just-activated line
rules to the header line itself; the claim says the header is always
emitted. -/
theorem header_discarded_by_own_line_rules :
    isHeader "snmp-server host" = true ∧
    ruleLookup [("snmp-server *", .listVal ["snmp-server *"])] "snmp-server host" =
      some (.listVal ["snmp-server *"]) ∧
    apply_exemptions_core ["snmp-server host"]
      [("snmp-server *", .listVal ["snmp-server *"])] = [] := by
  refine ⟨by decide, by decide, by decide⟩

/-- C4 (amended): for every header line whose first matching rule-set
entry is a list of line glob patterns, the filter sets the active line
rules to that list, and emits the header line itself unless the header's
own stripped text matches one of those line patterns, in which case the
header is discarded. -/
theorem header_line_rule_activation (rules : List (String × RuleVal))
    (line : String) (pats : List String) (cur : List String) (rest : List String)
    (hh : isHeader line = true)
    (hl : ruleLookup rules line = some (.listVal pats)) :
    applyAux rules (line :: rest) (false, cur) =
      (if emitCheck pats line then [line] else []) ++ applyAux rules rest (false, pats) := by
  simp [applyAux, lineStep, hh, hl]

/-- Witness for C4 (amended) on the spec's own scenario rule set. -/
theorem header_line_rule_activation_witness :
    applyAux [("snmp-server *", .listVal ["community *"])]
        ["snmp-server host", " community public"] (false, []) =
      (if emitCheck ["community *"] "snmp-server host" then ["snmp-server host"] else []) ++
        applyAux [("snmp-server *", .listVal ["community *"])]
          [" community public"] (false, ["community *"]) :=
  header_line_rule_activation [("snmp-server *", .listVal ["community *"])]
    "snmp-server host" ["community *"] [] [" community public"] (by decide) (by decide)

/-! ## C7 -/

/-- C7 (confirmed): rule matching on a header line is first-match-wins in
the rule set's declared order: the first entry whose header glob pattern
matches the full header line determines the action, and no later entry is
consulted — processing of the header is unchanged under arbitrary
replacement of the entries after the first match. -/
theorem first_match_wins (line : String) (st : FilterState)
    (r1 : List (String × RuleVal)) (p : String) (v : RuleVal)
    (r2 r2' : List (String × RuleVal))
    (hh : isHeader line = true)
    (hr1 : ∀ q w, (q, w) ∈ r1 → fnmatch line q = false)
    (hp : fnmatch line p = true) :
    ruleLookup (r1 ++ (p, v) :: r2) line = some v ∧
    lineStep (r1 ++ (p, v) :: r2) st line = lineStep (r1 ++ (p, v) :: r2') st line := by
  have key : ∀ (r1' : List (String × RuleVal)) (r2'' : List (String × RuleVal)),
      (∀ q w, (q, w) ∈ r1' → fnmatch line q = false) →
      ruleLookup (r1' ++ (p, v) :: r2'') line = some v := by
    intro r1'
    induction r1' with
    | nil => intro r2'' _; simp [ruleLookup, hp]
    | cons q r1'' ih =>
      intro r2'' hr
      obtain ⟨q1, q2⟩ := q
      have hq : fnmatch line q1 = false := hr q1 q2 (by simp)
      simp only [List.cons_append, ruleLookup, hq, Bool.false_eq_true, if_false]
      exact ih r2'' (fun a b hab => hr a b (List.mem_cons_of_mem _ hab))
  refine ⟨key r1 r2 hr1, ?_⟩
  rcases st with ⟨flag, cur⟩
  cases flag with
  | true => rfl
  | false => simp only [lineStep, hh, if_pos rfl, key r1 r2 hr1, key r1 r2' hr1]

/-- Witness for C7: the second entry matches first-match-wins semantics
with an arbitrary differing tail. -/
theorem first_match_wins_witness :
    ruleLookup
        ([("interface *", .strVal "*")] ++ ("host*", .listVal ["x"]) ::
          [("*", RuleVal.strVal "*")]) "hostname sw1" = some (.listVal ["x"]) ∧
    lineStep ([("interface *", .strVal "*")] ++ ("host*", .listVal ["x"]) ::
        [("*", RuleVal.strVal "*")]) (false, []) "hostname sw1" =
      lineStep ([("interface *", .strVal "*")] ++ ("host*", .listVal ["x"]) :: [])
        (false, []) "hostname sw1" :=
  first_match_wins "hostname sw1" (false, []) [("interface *", .strVal "*")]
    "host*" (.listVal ["x"]) [("*", RuleVal.strVal "*")] [] (by decide)
    (by
      intro q w h
      simp only [List.mem_singleton, Prod.mk.injEq] at h
      obtain ⟨rfl, rfl⟩ := h
      decide)
    (by decide)

/-! ## C5 -/

/-- C5 (confirmed): for a stored record holding an access token, a refresh
token and a timestamp, after exactly 7200 seconds the cached token is
treated as stale (`token_age < 7200` fails and the refresh exchange is
entered), while after 7199 seconds the cached token is returned
immediately with no network call. -/
theorem freshness_boundary (e1 e2 : ApiEnv) (store : TokenData) (ts : Int)
    (hts : store.timestamp = some ts) (hts0 : ts ≠ 0)
    (hacc : truthyS store.access_token = true)
    (href : truthyS store.refresh_token = true)
    (h1 : e1.now - ts = 7200) (h2 : e2.now - ts = 7199) :
    get_access_token e1 store = refresh_token e1 store (store.refresh_token.getD "") ∧
    get_access_token e2 store =
      { token := store.access_token, store := store, calls := [] } := by
  constructor
  · have : ¬(e1.now - ts < 7200) := by omega
    simp [get_access_token, hts, hacc, href, truthyI, hts0, this]
  · have : e2.now - ts < 7200 := by omega
    simp [get_access_token, hts, hacc, href, truthyI, hts0, this]

/-- Witness for C5 at timestamp 1000 with `now` 8200 and 8199. -/
theorem freshness_boundary_witness :
    get_access_token ⟨none, none, 8200, .err, .err⟩
        ⟨some "tok", some "r", some 1000, none, none⟩ =
      refresh_token ⟨none, none, 8200, .err, .err⟩
        ⟨some "tok", some "r", some 1000, none, none⟩ "r" ∧
    get_access_token ⟨none, none, 8199, .err, .err⟩
        ⟨some "tok", some "r", some 1000, none, none⟩ =
      { token := some "tok",
        store := ⟨some "tok", some "r", some 1000, none, none⟩, calls := [] } :=
  freshness_boundary ⟨none, none, 8200, .err, .err⟩ ⟨none, none, 8199, .err, .err⟩
    ⟨some "tok", some "r", some 1000, none, none⟩ 1000 rfl (by decide) (by decide)
    (by decide) (by decide) (by decide)

/-! ## C2 -/

/-- C2 counterexample: with no client id and no client secret configured,
a stale record and a failing refresh exchange, the manager nevertheless
performs the client-credentials reissue exchange (line 106 falls back to
`_authenticate_new_token()` unconditionally); the claim says that with a
missing credential no reissue exchange is performed. -/
theorem refresh_failure_reissues_without_credentials :
    (get_access_token ⟨none, none, 8200, .err, .err⟩
        ⟨some "tok", some "r", some 1000, none, none⟩).calls =
      [.refreshGrant "r", .clientCredentialsGrant] := by decide

/-- C2 (amended): when the refresh exchange fails with a transport/HTTP
error, the code always attempts the client-credentials reissue exchange,
whether or not client id and client secret are configured (absent
credentials are simply sent as absent); there is no
`AuthError("no credentials available")` short-circuit on this path — the
credentials check guards only the no-refresh-token path of
`_get_access_token`. -/
theorem refresh_failure_always_attempts_reissue (env : ApiEnv) (store : TokenData)
    (rt : String) (h : env.refreshResult = .err) :
    refresh_token env store rt =
      { token := (authenticate_new_token env store).token,
        store := (authenticate_new_token env store).store,
        calls := [.refreshGrant rt, .clientCredentialsGrant] } := by
  cases hc : env.clientCredentialsResult <;>
    simp [refresh_token, authenticate_new_token, h, hc]

/-- Witness for C2 (amended) with both credentials absent. -/
theorem refresh_failure_always_attempts_reissue_witness :
    refresh_token ⟨none, none, 8200, .err, .err⟩
        ⟨some "tok", some "r", some 1000, none, none⟩ "r" =
      { token := (authenticate_new_token ⟨none, none, 8200, .err, .err⟩
          ⟨some "tok", some "r", some 1000, none, none⟩).token,
        store := (authenticate_new_token ⟨none, none, 8200, .err, .err⟩
          ⟨some "tok", some "r", some 1000, none, none⟩).store,
        calls := [.refreshGrant "r", .clientCredentialsGrant] } :=
  refresh_failure_always_attempts_reissue ⟨none, none, 8200, .err, .err⟩
    ⟨some "tok", some "r", some 1000, none, none⟩ "r" rfl

/-! ## C6 -/

/-- C6 (confirmed): if the refresh exchange fails and the subsequent
client-credentials reissue also fails, no access token is returned, the
reissue was attempted exactly once, and the stored token record is
unchanged: `_save_token_data` runs only after a successful exchange, so a
failed exchange never writes to the token store. -/
theorem failed_refresh_and_reissue_leave_store_unchanged (env : ApiEnv)
    (store : TokenData) (rt : String)
    (h1 : env.refreshResult = .err) (h2 : env.clientCredentialsResult = .err) :
    refresh_token env store rt =
      { token := none, store := store,
        calls := [.refreshGrant rt, .clientCredentialsGrant] } := by
  simp [refresh_token, authenticate_new_token, h1, h2]

/-- Witness for C6. -/
theorem failed_refresh_and_reissue_leave_store_unchanged_witness :
    refresh_token ⟨some "id", some "sec", 8200, .err, .err⟩
        ⟨some "tok", some "r", some 1000, some "id", some "sec"⟩ "r" =
      { token := none,
        store := ⟨some "tok", some "r", some 1000, some "id", some "sec"⟩,
        calls := [.refreshGrant "r", .clientCredentialsGrant] } :=
  failed_refresh_and_reissue_leave_store_unchanged
    ⟨some "id", some "sec", 8200, .err, .err⟩
    ⟨some "tok", some "r", some 1000, some "id", some "sec"⟩ "r" rfl rfl

/-! ## Supporting lemmas for C1 -/

/-- Unfolding of the filter loop at a cons. -/
theorem applyAux_cons (r : List (String × RuleVal)) (st : FilterState)
    (l : String) (rest : List String) :
    applyAux r (l :: rest) st =
      (if (lineStep r st l).2 then [l] else []) ++ applyAux r rest (lineStep r st l).1 := by
  simp only [applyAux]

/-- While inside a fully exempt block the loop discards everything up to
and including the first `!` terminator, then resumes outside. -/
theorem applyAux_exempt (r : List (String × RuleVal)) :
    ∀ (d : List String) (cur : List String),
      applyAux r d (true, cur) = applyAux r (afterBang d) (false, cur) := by
  intro d
  induction d with
  | nil => intro cur; simp [applyAux, afterBang]
  | cons l rest ih =>
    intro cur
    rw [applyAux_cons]
    cases hb : pyStrip l == "!" with
    | true => simp [lineStep, hb, afterBang]
    | false => simp [lineStep, hb, afterBang, ih]

theorem bangOk_tail {l : String} {rest : List String}
    (h : bangOk (l :: rest) = true) : bangOk rest = true := by
  cases rest with
  | nil => rfl
  | cons y t => simp only [bangOk, Bool.and_eq_true] at h; exact h.2

theorem allSafe_head {r : List (String × RuleVal)} {l : String} {rest : List String}
    (h : allHeadersSafe r (l :: rest) = true) : headerSelfSafe r l = true := by
  simp only [allHeadersSafe, List.all_cons, Bool.and_eq_true] at h; exact h.1

theorem allSafe_tail {r : List (String × RuleVal)} {l : String} {rest : List String}
    (h : allHeadersSafe r (l :: rest) = true) : allHeadersSafe r rest = true := by
  simp only [allHeadersSafe, List.all_cons, Bool.and_eq_true] at h; exact h.2

/-- A header whose first matching rule value is a line-pattern list is
emitted, under `headerSelfSafe`. -/
theorem headerSelfSafe_listVal {r : List (String × RuleVal)} {l : String}
    {pats : List String} (h : headerSelfSafe r l = true)
    (hh : isHeader l = true) (hl : ruleLookup r l = some (.listVal pats)) :
    emitCheck pats l = true := by
  simp only [headerSelfSafe, hh, hl, Bool.not_true, Bool.false_or] at h
  exact h

/-- The suffix after a consumed block terminator keeps all side conditions
and starts at a header. -/
theorem afterBang_facts (r : List (String × RuleVal)) :
    ∀ (d : List String), bangOk d = true → allHeadersSafe r d = true →
      bangOk (afterBang d) = true ∧ allHeadersSafe r (afterBang d) = true ∧
      headedOk (afterBang d) = true ∧ (afterBang d).length ≤ d.length := by
  intro d
  induction d with
  | nil => intro _ _; refine ⟨rfl, rfl, rfl, le_rfl⟩
  | cons l rest ih =>
    intro hB hA
    cases hb : pyStrip l == "!" with
    | false =>
      have h := ih (bangOk_tail hB) (allSafe_tail hA)
      simp only [afterBang, hb]
      exact ⟨h.1, h.2.1, h.2.2.1, Nat.le_succ_of_le h.2.2.2⟩
    | true =>
      simp only [afterBang, hb]
      refine ⟨bangOk_tail hB, allSafe_tail hA, ?_, Nat.le_succ _⟩
      cases rest with
      | nil => rfl
      | cons y t =>
        simp only [bangOk, hb, Bool.not_true, Bool.false_or, Bool.and_eq_true] at hB
        simpa [headedOk] using hB.1

/-- Main induction for the amended idempotence: re-filtering the output
re-emits every line, provided all headers survive their own line rules and
no indented line directly follows a block terminator.  The two active
line-rule states may differ when the remaining document starts at a
header (which resets them identically in both passes). -/
theorem applyAux_idem_aux (r : List (String × RuleVal)) :
    ∀ (n : Nat) (d : List String), d.length ≤ n →
    ∀ (cur₁ cur₂ : List String),
      allHeadersSafe r d = true → bangOk d = true →
      (cur₁ = cur₂ ∨ headedOk d = true) →
      applyAux r (applyAux r d (false, cur₁)) (false, cur₂) =
        applyAux r d (false, cur₁) := by
  intro n
  induction n with
  | zero =>
    intro d hd cur₁ cur₂ _ _ _
    have hnil : d = [] := List.length_eq_zero.mp (Nat.le_zero.mp hd)
    subst hnil
    simp [applyAux]
  | succ n ih =>
    intro d hd cur₁ cur₂ hA hB hs
    cases d with
    | nil => simp [applyAux]
    | cons l rest =>
      have hd' : rest.length ≤ n := by simpa using hd
      have hA' := allSafe_tail hA
      have hB' := bangOk_tail hB
      cases hH : isHeader l with
      | false =>
        -- not a header: the two passes share the same active rules
        have hcur : cur₁ = cur₂ := by
          rcases hs with h | h
          · exact h
          · simp only [headedOk, hH] at h
            exact absurd h Bool.false_ne_true
        subst hcur
        have hstep : lineStep r (false, cur₁) l = ((false, cur₁), emitCheck cur₁ l) := by
          simp [lineStep, hH]
        rw [applyAux_cons, hstep]
        cases hE : emitCheck cur₁ l with
        | false => simpa using ih rest hd' cur₁ cur₁ hA' hB' (Or.inl rfl)
        | true =>
          simp only [if_true]
          rw [List.singleton_append, applyAux_cons, hstep, hE]
          simp only [if_true]
          rw [List.singleton_append]
          exact congrArg (l :: ·) (ih rest hd' cur₁ cur₁ hA' hB' (Or.inl rfl))
      | true =>
        -- a header: both passes reset the line rules identically
        cases hL : ruleLookup r l with
        | none =>
          have hstep : ∀ c : List String,
              lineStep r (false, c) l = ((false, []), true) := by
            intro c; simp [lineStep, hH, hL, emitCheck]
          rw [applyAux_cons, hstep]
          simp only [if_true]
          rw [List.singleton_append, applyAux_cons, hstep]
          simp only [if_true]
          rw [List.singleton_append]
          exact congrArg (l :: ·) (ih rest hd' [] [] hA' hB' (Or.inl rfl))
        | some v =>
          cases v with
          | otherVal =>
            have hstep : ∀ c : List String,
                lineStep r (false, c) l = ((false, []), true) := by
              intro c; simp [lineStep, hH, hL, emitCheck]
            rw [applyAux_cons, hstep]
            simp only [if_true]
            rw [List.singleton_append, applyAux_cons, hstep]
            simp only [if_true]
            rw [List.singleton_append]
            exact congrArg (l :: ·) (ih rest hd' [] [] hA' hB' (Or.inl rfl))
          | listVal pats =>
            have hE : emitCheck pats l :=
              headerSelfSafe_listVal (allSafe_head hA) hH hL
            have hstep : ∀ c : List String,
                lineStep r (false, c) l = ((false, pats), true) := by
              intro c; simp [lineStep, hH, hL, hE]
            rw [applyAux_cons, hstep]
            simp only [if_true]
            rw [List.singleton_append, applyAux_cons, hstep]
            simp only [if_true]
            rw [List.singleton_append]
            exact congrArg (l :: ·) (ih rest hd' pats pats hA' hB' (Or.inl rfl))
          | strVal s =>
            cases hse : s == "*" with
            | false =>
              have hstep : ∀ c : List String,
                  lineStep r (false, c) l = ((false, []), true) := by
                intro c; simp [lineStep, hH, hL, hse, emitCheck]
              rw [applyAux_cons, hstep]
              simp only [if_true]
              rw [List.singleton_append, applyAux_cons, hstep]
              simp only [if_true]
              rw [List.singleton_append]
              exact congrArg (l :: ·) (ih rest hd' [] [] hA' hB' (Or.inl rfl))
            | true =>
              -- fully exempt block: swallowed in both passes
              have hstep : lineStep r (false, cur₁) l = ((true, []), false) := by
                simp [lineStep, hH, hL, hse]
              obtain ⟨hB2, hA2, hH2, hlen2⟩ := afterBang_facts r rest hB' hA'
              rw [applyAux_cons, hstep]
              simp only [if_false, List.nil_append]
              rw [applyAux_exempt]
              exact ih (afterBang rest) (le_trans hlen2 hd') [] cur₂ hA2 hB2 (Or.inr hH2)

/-! ## C1 counterexample -/

/-- C1 counterexample: the exemption filter is not idempotent.  With rules
`{"H2": ["H2"], "H1": ["x"]}` and document `["H1", "H2", " x"]` the first
pass removes the header `H2` via its own line rules, leaving
`["H1", " x"]`; re-filtering then re-associates `" x"` with `H1`'s line
rules and removes it. -/
theorem apply_exemptions_not_idempotent :
    apply_exemptions_core
        (apply_exemptions_core ["H1", "H2", " x"]
          [("H2", .listVal ["H2"]), ("H1", .listVal ["x"])])
        [("H2", .listVal ["H2"]), ("H1", .listVal ["x"])] ≠
      apply_exemptions_core ["H1", "H2", " x"]
        [("H2", .listVal ["H2"]), ("H1", .listVal ["x"])] := by decide

/-- C1 (amended): the exemption filter is idempotent for every document
and rule set such that (a) no header line whose first matching rule is a
line-pattern list is itself matched by one of those patterns, and (b) no
line with leading whitespace directly follows a line whose stripped form
is `!`.  (Without (a), a header removed by its own line rules re-exposes
its block's lines to the previous header's rules on the second pass — the
counterexample; without (b), removing a fully exempt block re-exposes
indented lines that followed its `!` terminator.) -/
theorem apply_exemptions_idempotent_on_safe_inputs (d : List String)
    (r : List (String × RuleVal))
    (hA : allHeadersSafe r d = true) (hB : bangOk d = true) :
    apply_exemptions_core (apply_exemptions_core d r) r = apply_exemptions_core d r :=
  applyAux_idem_aux r d.length d le_rfl [] [] hA hB (Or.inl rfl)

/-- Witness for C1 (amended) on the spec's scenario documents and rules,
which satisfy both side conditions and exercise real filtering. -/
theorem apply_exemptions_idempotent_on_safe_inputs_witness :
    apply_exemptions_core
        (apply_exemptions_core
          ["interface Gi1", " description x", "!", "hostname sw1",
           "snmp-server host", " community public", " location lab", "!"]
          [("interface *", .strVal "*"), ("snmp-server *", .listVal ["community *"])])
        [("interface *", .strVal "*"), ("snmp-server *", .listVal ["community *"])] =
      apply_exemptions_core
        ["interface Gi1", " description x", "!", "hostname sw1",
         "snmp-server host", " community public", " location lab", "!"]
        [("interface *", .strVal "*"), ("snmp-server *", .listVal ["community *"])] :=
  apply_exemptions_idempotent_on_safe_inputs
    ["interface Gi1", " description x", "!", "hostname sw1",
     "snmp-server host", " community public", " location lab", "!"]
    [("interface *", .strVal "*"), ("snmp-server *", .listVal ["community *"])]
    (by decide) (by decide)

/-! ## Supporting lemmas for C8: normalization and key order -/

mutual

theorem jvalBEq_refl : ∀ (a : JVal), jvalBEq a a = true
  | .null => rfl
  | .bool b => by simp [jvalBEq]
  | .num n => by simp [jvalBEq]
  | .str s => by simp [jvalBEq]
  | .arr xs => by simp [jvalBEq, jlistBEq_refl xs]
  | .obj ps => by simp [jvalBEq, jpairsBEq_refl ps]

theorem jlistBEq_refl : ∀ (xs : List JVal), jlistBEq xs xs = true
  | [] => rfl
  | x :: xs => by simp [jlistBEq, jvalBEq_refl x, jlistBEq_refl xs]

theorem jpairsBEq_refl : ∀ (ps : List (String × JVal)), jpairsBEq ps ps = true
  | [] => rfl
  | (k, v) :: ps => by simp [jpairsBEq, jvalBEq_refl v, jpairsBEq_refl ps]

end

/-! Order facts for the lexicographic key comparison. -/

theorem charListLt_asymm : ∀ (as bs : List Char),
    charListLt as bs = true → charListLt bs as = false := by
  intro as
  induction as with
  | nil =>
    intro bs _
    cases bs with
    | nil => rfl
    | cons b t => rfl
  | cons a as ih =>
    intro bs h
    cases bs with
    | nil => simp [charListLt] at h
    | cons b t =>
      simp only [charListLt, Bool.or_eq_true, Bool.and_eq_true, beq_iff_eq,
        decide_eq_true_eq] at h
      rcases h with hlt | ⟨heq, hrec⟩
      · have h1 : decide (b < a) = false := decide_eq_false (lt_asymm hlt)
        have h2 : (b == a) = false := by
          simp only [beq_eq_false_iff_ne, ne_eq]
          exact fun hba => absurd (hba ▸ hlt) (lt_irrefl b)
        simp [charListLt, h1, h2]
      · subst heq
        have h2 : charListLt t as = false := ih t hrec
        simp [charListLt, h2]

theorem charListLt_connex : ∀ (as bs : List Char),
    charListLt as bs = false → charListLt bs as = false → as = bs := by
  intro as
  induction as with
  | nil =>
    intro bs h1 _
    cases bs with
    | nil => rfl
    | cons b t => simp [charListLt] at h1
  | cons a as ih =>
    intro bs h1 h2
    cases bs with
    | nil => simp [charListLt] at h2
    | cons b t =>
      simp only [charListLt, Bool.or_eq_false_iff, Bool.and_eq_false_iff,
        decide_eq_false_iff_not] at h1 h2
      have hab : a = b := le_antisymm (le_of_not_lt h2.1) (le_of_not_lt h1.1)
      subst hab
      rcases h1.2 with hc | hr1
      · simp at hc
      · rcases h2.2 with hc | hr2
        · simp at hc
        · rw [ih t hr1 hr2]

theorem charListLt_trans : ∀ (as bs cs : List Char),
    charListLt as bs = true → charListLt bs cs = true → charListLt as cs = true := by
  intro as
  induction as with
  | nil =>
    intro bs cs h1 h2
    cases bs with
    | nil => simp [charListLt] at h1
    | cons b t =>
      cases cs with
      | nil => simp [charListLt] at h2
      | cons c u => rfl
  | cons a as ih =>
    intro bs cs h1 h2
    cases bs with
    | nil => simp [charListLt] at h1
    | cons b t =>
      cases cs with
      | nil => simp [charListLt] at h2
      | cons c u =>
        simp only [charListLt, Bool.or_eq_true, Bool.and_eq_true, beq_iff_eq,
          decide_eq_true_eq] at h1 h2 ⊢
        rcases h1 with hab | ⟨hab, hr1⟩
        · rcases h2 with hbc | ⟨hbc, hr2⟩
          · exact Or.inl (lt_trans hab hbc)
          · exact Or.inl (hbc ▸ hab)
        · rcases h2 with hbc | ⟨hbc, hr2⟩
          · exact Or.inl (hab ▸ hbc)
          · exact Or.inr ⟨hab.trans hbc, ih t u hr1 hr2⟩

theorem keyLe_trans {a b c : String} (h1 : keyLe a b = true) (h2 : keyLe b c = true) :
    keyLe a c = true := by
  simp only [keyLe, Bool.not_eq_true'] at h1 h2 ⊢
  cases hca : charListLt c.data a.data with
  | false => rfl
  | true =>
    exfalso
    cases hab : charListLt a.data b.data with
    | true =>
      have hcb := charListLt_trans c.data a.data b.data hca hab
      rw [hcb] at h2
      exact Bool.noConfusion h2
    | false =>
      have hdata : a.data = b.data := charListLt_connex a.data b.data hab h1
      rw [← hdata, hca] at h2
      exact Bool.noConfusion h2

theorem keyLe_of_not_keyLe {a b : String} (h : keyLe a b = false) :
    keyLe b a = true := by
  simp only [keyLe, Bool.not_eq_false', Bool.not_eq_true'] at h ⊢
  exact charListLt_asymm b.data a.data h

theorem keyLe_antisymm {a b : String} (h1 : keyLe a b = true) (h2 : keyLe b a = true) :
    a = b := by
  simp only [keyLe, Bool.not_eq_true'] at h1 h2
  exact String.ext (charListLt_connex a.data b.data h2 h1)

/-- Key order used by `sortKeys`. -/
abbrev keyLE (p q : String × JVal) : Prop := keyLe p.1 q.1 = true

theorem insertByKey_perm (p : String × JVal) (l : List (String × JVal)) :
    (insertByKey p l).Perm (p :: l) := by
  induction l with
  | nil => simp [insertByKey]
  | cons q qs ih =>
    cases h : keyLe p.1 q.1 with
    | true => simp [insertByKey, h]
    | false =>
      simp only [insertByKey, h, Bool.false_eq_true, if_false]
      exact (ih.cons q).trans (List.Perm.swap p q qs)

theorem sortKeys_perm (l : List (String × JVal)) : (sortKeys l).Perm l := by
  induction l with
  | nil => simp [sortKeys]
  | cons p ps ih => exact (insertByKey_perm p (sortKeys ps)).trans (ih.cons p)

theorem insertByKey_sorted (p : String × JVal) (l : List (String × JVal))
    (h : l.Pairwise keyLE) : (insertByKey p l).Pairwise keyLE := by
  induction l with
  | nil => simp [insertByKey]
  | cons q qs ih =>
    rcases List.pairwise_cons.mp h with ⟨hq, hqs⟩
    cases hle : keyLe p.1 q.1 with
    | true =>
      simp only [insertByKey, hle, if_true]
      refine List.pairwise_cons.mpr ⟨?_, h⟩
      intro x hx
      rcases List.mem_cons.mp hx with rfl | hx
      · exact hle
      · exact keyLe_trans hle (hq x hx)
    | false =>
      simp only [insertByKey, hle, Bool.false_eq_true, if_false]
      refine List.pairwise_cons.mpr ⟨?_, ih hqs⟩
      intro x hx
      have := (insertByKey_perm p qs).mem_iff.mp hx
      rcases List.mem_cons.mp this with rfl | hx'
      · exact keyLe_of_not_keyLe hle
      · exact hq x hx'

theorem sortKeys_sorted (l : List (String × JVal)) : (sortKeys l).Pairwise keyLE := by
  induction l with
  | nil => simp [sortKeys]
  | cons p ps ih => exact insertByKey_sorted p (sortKeys ps) ih

/-- Two key-sorted association lists that are permutations of each other,
with duplicate-free keys, are equal. -/
theorem sorted_key_perm_eq : ∀ (l₁ l₂ : List (String × JVal)), l₁.Perm l₂ →
    l₁.Pairwise keyLE → l₂.Pairwise keyLE → (l₁.map Prod.fst).Nodup → l₁ = l₂ := by
  intro l₁
  induction l₁ with
  | nil => intro l₂ hp _ _ _; exact (hp.nil_eq).symm ▸ rfl
  | cons p t₁ ih =>
    intro l₂ hp hs₁ hs₂ hnd
    cases l₂ with
    | nil => exact absurd hp.symm (by simp)
    | cons q t₂ =>
      rcases List.pairwise_cons.mp hs₁ with ⟨hp1, hs₁'⟩
      rcases List.pairwise_cons.mp hs₂ with ⟨hq1, hs₂'⟩
      have hpq : p = q := by
        have hpmem : p ∈ q :: t₂ := hp.mem_iff.mp (List.mem_cons_self p t₁)
        rcases List.mem_cons.mp hpmem with h | h
        · exact h
        · -- p ∈ t₂, so keyLe q.1 p.1; and q ∈ p :: t₁ gives keyLe p.1 q.1
          have hqmem : q ∈ p :: t₁ := hp.symm.mem_iff.mp (List.mem_cons_self q t₂)
          rcases List.mem_cons.mp hqmem with h' | h'
          · exact h'.symm
          · -- q ∈ t₁ with q.1 = p.1 contradicts key nodup of p :: t₁
            have h1 : keyLe q.1 p.1 = true := hq1 p h
            have h2 : keyLe p.1 q.1 = true := hp1 q h'
            have heq : p.1 = q.1 := keyLe_antisymm h2 h1
            rcases List.nodup_cons.mp hnd with ⟨hnotin, _⟩
            exact absurd (heq ▸ List.mem_map_of_mem Prod.fst h') hnotin
      subst hpq
      have ht : t₁.Perm t₂ := hp.cons_inv
      rcases List.nodup_cons.mp hnd with ⟨_, hnd'⟩
      exact congrArg (p :: ·) (ih t₂ ht hs₁' hs₂' hnd')

theorem jpairsNorm_eq_map (ps : List (String × JVal)) :
    jpairsNorm ps = ps.map (fun p => (p.1, p.2.norm)) := by
  induction ps with
  | nil => rfl
  | cons p ps ih => rcases p with ⟨k, v⟩; simp [jpairsNorm, ih]

theorem jlistNorm_eq_map (xs : List JVal) : jlistNorm xs = xs.map JVal.norm := by
  induction xs with
  | nil => rfl
  | cons x xs ih => simp [jlistNorm, ih]

theorem jpairsNorm_keys (ps : List (String × JVal)) :
    (jpairsNorm ps).map Prod.fst = ps.map Prod.fst := by
  simp [jpairsNorm_eq_map]

/-- wellKeyed components of an object. -/
theorem wellKeyed_obj {kvs : List (String × JVal)}
    (h : (JVal.obj kvs).wellKeyed = true) :
    (kvs.map Prod.fst).Nodup ∧ jpairsWellKeyed kvs = true := by
  simpa [JVal.wellKeyed, Bool.and_eq_true, decide_eq_true_iff] using h

mutual

/-- An insertion-order change of dict entries does not change the
normalized value (given duplicate-free keys on the left). -/
theorem reord_norm : ∀ {a b : JVal}, Reord a b → a.wellKeyed = true → a.norm = b.norm
  | _, _, .null, _ => rfl
  | _, _, .bool b, _ => rfl
  | _, _, .num n, _ => rfl
  | _, _, .str s, _ => rfl
  | _, _, .arr h, hw => by
    simp only [JVal.norm]
    exact congrArg JVal.arr (reordList_norm h (by simpa [JVal.wellKeyed] using hw))
  | _, _, @Reord.obj kvs mid out hpairs hperm, hw => by
    rcases wellKeyed_obj hw with ⟨hnd, hwp⟩
    have hmid := reordPairs_norm hpairs hwp
    simp only [JVal.norm]
    refine congrArg JVal.obj ?_
    have hperm2 : (jpairsNorm mid).Perm (jpairsNorm out) := by
      rw [jpairsNorm_eq_map, jpairsNorm_eq_map]
      exact hperm.map _
    have hperm3 : (jpairsNorm kvs).Perm (jpairsNorm out) := hmid.1 ▸ hperm2
    have hndk : ((jpairsNorm kvs).map Prod.fst).Nodup := by
      rw [jpairsNorm_keys]; exact hnd
    have hnds : ((sortKeys (jpairsNorm kvs)).map Prod.fst).Nodup :=
      ((sortKeys_perm (jpairsNorm kvs)).map Prod.fst).nodup_iff.mpr hndk
    exact sorted_key_perm_eq _ _
      (((sortKeys_perm (jpairsNorm kvs)).trans hperm3).trans
        (sortKeys_perm (jpairsNorm out)).symm)
      (sortKeys_sorted _) (sortKeys_sorted _) hnds

theorem reordList_norm : ∀ {xs ys : List JVal}, ReordList xs ys →
    jlistWellKeyed xs = true → jlistNorm xs = jlistNorm ys
  | _, _, .nil, _ => rfl
  | _, _, .cons h hs, hw => by
    rename_i x y xs ys
    have hw' : x.wellKeyed = true ∧ jlistWellKeyed xs = true := by
      simpa [jlistWellKeyed, Bool.and_eq_true] using hw
    simp only [jlistNorm]
    rw [reord_norm h hw'.1, reordList_norm hs hw'.2]

theorem reordPairs_norm : ∀ {ps qs : List (String × JVal)}, ReordPairs ps qs →
    jpairsWellKeyed ps = true →
    jpairsNorm ps = jpairsNorm qs ∧ ps.map Prod.fst = qs.map Prod.fst
  | _, _, .nil, _ => ⟨rfl, rfl⟩
  | _, _, .cons h hs, hw => by
    rename_i k v w ps qs
    have hw' : v.wellKeyed = true ∧ jpairsWellKeyed ps = true := by
      simpa [jpairsWellKeyed, Bool.and_eq_true] using hw
    have ih := reordPairs_norm hs hw'.2
    constructor
    · simp only [jpairsNorm]
      rw [reord_norm h hw'.1, ih.1]
    · simp only [List.map_cons]
      rw [ih.2]

end

/-! ## C8 -/

/-- C8 (confirmed): for every canonicalizable document `a` (dicts have
duplicate-free keys, as `json.load` guarantees) and every representation
`b` of `a` whose object keys are in (possibly) different insertion order,
`compare_configs` reports equality and renders no diff: the `config_a ==
config_b` check (line 81) is order-insensitive on dicts and short-circuits
before any diff is computed.  Taking `b` identical to `a` is the special
case `compare(a, a)`. -/
theorem compare_equal_up_to_key_order (a b : JVal) (ff tf : Line)
    (hw : a.wellKeyed = true) (h : Reord a b) :
    compare_configs a b ff tf =
      { different := false, diff := [], additions := 0, removals := 0 } := by
  have hn : a.norm = b.norm := reord_norm h hw
  have hp : pyEq a b = true := by rw [pyEq, hn]; exact jvalBEq_refl _
  simp [compare_configs, hp]

/-- Witness for C8: two nested documents with reordered keys at both
levels compare as equal with no diff. -/
theorem compare_equal_up_to_key_order_witness :
    compare_configs
        (.obj [("b", .num 1), ("a", .arr [.obj [("y", .null), ("x", .bool true)]])])
        (.obj [("a", .arr [.obj [("x", .bool true), ("y", .null)]]), ("b", .num 1)])
        [] [] =
      { different := false, diff := [], additions := 0, removals := 0 } :=
  compare_equal_up_to_key_order
    (.obj [("b", .num 1), ("a", .arr [.obj [("y", .null), ("x", .bool true)]])])
    (.obj [("a", .arr [.obj [("x", .bool true), ("y", .null)]]), ("b", .num 1)])
    [] [] (by decide)
    (Reord.obj
      (ReordPairs.cons (Reord.num 1)
        (ReordPairs.cons
          (Reord.arr (ReordList.cons
            (Reord.obj
              (ReordPairs.cons Reord.null
                (ReordPairs.cons (Reord.bool true) ReordPairs.nil))
              (List.Perm.swap ("x", JVal.bool true) ("y", JVal.null) []))
            ReordList.nil))
          ReordPairs.nil))
      (List.Perm.swap ("a", JVal.arr [JVal.obj [("x", JVal.bool true), ("y", JVal.null)]])
        ("b", JVal.num 1) []))

/-! ## Supporting lemmas for C3: bounds of `find_longest_match` -/

theorem flmRow_inv (alo ahi blo bhi i : Nat) (hi1 : alo ≤ i) (hi2 : i < ahi)
    (j2len : Nat → Nat)
    (hprev : ∀ j', j2len j' ≤ i - alo ∧ j2len j' ≤ j' + 1 - blo) :
    ∀ (js : List Nat) (acc : Nat → Nat) (best : FlmBest),
      (∀ j', acc j' ≤ i + 1 - alo ∧ acc j' ≤ j' + 1 - blo) →
      FlmInv alo ahi blo bhi best →
      (∀ j', (flmRow blo bhi i j2len js acc best).1 j' ≤ i + 1 - alo ∧
             (flmRow blo bhi i j2len js acc best).1 j' ≤ j' + 1 - blo) ∧
      FlmInv alo ahi blo bhi (flmRow blo bhi i j2len js acc best).2 := by
  intro js
  induction js with
  | nil => intro acc best hacc hbest; exact ⟨hacc, hbest⟩
  | cons j js ih =>
    intro acc best hacc hbest
    by_cases hj : blo ≤ j ∧ j < bhi
    · have hk1 : (if j = 0 then 0 else j2len (j - 1)) + 1 ≤ i + 1 - alo := by
        by_cases hj0 : j = 0
        · rw [if_pos hj0]; omega
        · rw [if_neg hj0]
          have := (hprev (j - 1)).1
          omega
      have hk2 : (if j = 0 then 0 else j2len (j - 1)) + 1 ≤ j + 1 - blo := by
        by_cases hj0 : j = 0
        · rw [if_pos hj0]
          have hb0 : blo = 0 := by omega
          omega
        · rw [if_neg hj0]
          have := (hprev (j - 1)).2
          omega
      simp only [flmRow, if_pos hj]
      apply ih
      · intro j'
        by_cases hx : j' = j
        · simp only [hx, if_pos rfl]; exact ⟨hk1, hk2⟩
        · simp only [if_neg hx]; exact hacc j'
      · by_cases hbig : (if j = 0 then 0 else j2len (j - 1)) + 1 > best.bestsize
        · simp only [if_pos hbig]
          rcases hbest with ⟨b1, b2, b3, b4⟩
          refine ⟨?_, ?_, ?_, ?_⟩ <;> dsimp only <;> omega
        · simp only [if_neg hbig]; exact hbest
    · simp only [flmRow, if_neg hj]
      exact ih acc best hacc hbest

theorem flmRows_inv (a : List Line) (bj : Line → List Nat) (alo ahi blo bhi : Nat) :
    ∀ (m i0 : Nat) (j2len : Nat → Nat) (best : FlmBest),
      alo ≤ i0 → i0 + m ≤ ahi →
      (∀ j', j2len j' ≤ i0 - alo ∧ j2len j' ≤ j' + 1 - blo) →
      FlmInv alo ahi blo bhi best →
      FlmInv alo ahi blo bhi (flmRows a bj blo bhi (List.range' i0 m) j2len best) := by
  intro m
  induction m with
  | zero => intro i0 j2len best _ _ _ hbest; simpa [flmRows] using hbest
  | succ m ih =>
    intro i0 j2len best h1 h2 hprev hbest
    have hrow := flmRow_inv alo ahi blo bhi i0 h1 (by omega) j2len hprev
      (bj (a.getD i0 [])) (fun _ => 0) best
      (fun _ => ⟨Nat.zero_le _, Nat.zero_le _⟩) hbest
    rcases hfr : flmRow blo bhi i0 j2len (bj (a.getD i0 [])) (fun _ => 0) best
      with ⟨new, best'⟩
    rw [hfr] at hrow
    have : List.range' i0 (m + 1) = i0 :: List.range' (i0 + 1) m := List.range'_succ ..
    rw [this]
    simp only [flmRows, hfr]
    exact ih (i0 + 1) new best' (by omega) (by omega) hrow.1 hrow.2

theorem extendBack_inv (a b : List Line) (alo blo ahi bhi : Nat) :
    ∀ (fuel : Nat) (best : FlmBest), FlmInv alo ahi blo bhi best →
      FlmInv alo ahi blo bhi (extendBack a b alo blo fuel best) := by
  intro fuel
  induction fuel with
  | zero => intro best h; exact h
  | succ n ih =>
    intro best h
    simp only [extendBack]
    by_cases hg : best.besti > alo ∧ best.bestj > blo ∧
        a.getD (best.besti - 1) [] == b.getD (best.bestj - 1) []
    · simp only [if_pos hg]
      rcases h with ⟨b1, b2, b3, b4⟩
      refine ih _ ⟨?_, ?_, ?_, ?_⟩ <;> dsimp only <;> omega
    · simp only [if_neg hg]; exact h

theorem extendFwd_inv (a b : List Line) (alo blo ahi bhi : Nat) :
    ∀ (fuel : Nat) (best : FlmBest), FlmInv alo ahi blo bhi best →
      FlmInv alo ahi blo bhi (extendFwd a b ahi bhi fuel best) := by
  intro fuel
  induction fuel with
  | zero => intro best h; exact h
  | succ n ih =>
    intro best h
    simp only [extendFwd]
    by_cases hg : best.besti + best.bestsize < ahi ∧ best.bestj + best.bestsize < bhi ∧
        a.getD (best.besti + best.bestsize) [] == b.getD (best.bestj + best.bestsize) []
    · simp only [if_pos hg]
      rcases h with ⟨b1, b2, b3, b4⟩
      refine ih _ ⟨?_, ?_, ?_, ?_⟩ <;> dsimp only <;> omega
    · simp only [if_neg hg]; exact h

/-- `find_longest_match` returns a block inside the requested ranges. -/
theorem flm_bounds (a b : List Line) (bj : Line → List Nat) (alo ahi blo bhi : Nat)
    (h1 : alo ≤ ahi) (h2 : blo ≤ bhi) :
    FlmInv alo ahi blo bhi (find_longest_match a b bj alo ahi blo bhi) := by
  unfold find_longest_match
  apply extendFwd_inv
  apply extendBack_inv
  apply flmRows_inv a bj alo ahi blo bhi (ahi - alo) alo (fun _ => 0) ⟨alo, blo, 0⟩
    le_rfl (by omega) (fun _ => ⟨Nat.zero_le _, Nat.zero_le _⟩)
  refine ⟨?_, ?_, ?_, ?_⟩ <;> dsimp only <;> omega

/-! ## Supporting lemmas for C3: structure of the matching blocks -/

theorem blocksWithin_mono_start {i0 j0 i0' j0' A B : Nat} :
    ∀ {bs : List (Nat × Nat × Nat)}, BlocksWithin i0 j0 bs A B →
      i0' ≤ i0 → j0' ≤ j0 → BlocksWithin i0' j0' bs A B := by
  intro bs
  cases bs with
  | nil => intro _ _ _; trivial
  | cons blk rest =>
    rcases blk with ⟨i, j, k⟩
    intro h h1 h2
    rcases h with ⟨a1, a2, a3, a4, a5⟩
    exact ⟨by omega, by omega, a3, a4, a5⟩

theorem blocksWithin_mono_end {A B A' B' : Nat} (hA : A ≤ A') (hB : B ≤ B') :
    ∀ (bs : List (Nat × Nat × Nat)) {i0 j0 : Nat}, BlocksWithin i0 j0 bs A B →
      BlocksWithin i0 j0 bs A' B' := by
  intro bs
  induction bs with
  | nil => intro _ _ _; trivial
  | cons blk rest ih =>
    rcases blk with ⟨i, j, k⟩
    intro i0 j0 h
    rcases h with ⟨a1, a2, a3, a4, a5⟩
    exact ⟨a1, a2, by omega, by omega, ih a5⟩

theorem blocksWithin_append {A B A' B' : Nat} (hA : A ≤ A') (hB : B ≤ B') :
    ∀ (xs : List (Nat × Nat × Nat)) {i0 j0 : Nat} (ys : List (Nat × Nat × Nat)),
      BlocksWithin i0 j0 xs A B → BlocksWithin A B ys A' B' →
      i0 ≤ A → j0 ≤ B → BlocksWithin i0 j0 (xs ++ ys) A' B' := by
  intro xs
  induction xs with
  | nil =>
    intro i0 j0 ys _ hy h1 h2
    exact blocksWithin_mono_start hy h1 h2
  | cons blk rest ih =>
    rcases blk with ⟨i, j, k⟩
    intro i0 j0 ys hx hy _ _
    rcases hx with ⟨a1, a2, a3, a4, a5⟩
    exact ⟨a1, a2, by omega, by omega, ih ys a5 hy a3 a4⟩

/-- The recursive block collection yields ordered blocks within the
requested ranges, given sufficient fuel. -/
theorem matching_blocks_rec_within (a b : List Line) (bj : Line → List Nat) :
    ∀ (fuel alo ahi blo bhi : Nat),
      (ahi - alo) + (bhi - blo) ≤ fuel → alo ≤ ahi → blo ≤ bhi →
      BlocksWithin alo blo (matching_blocks_rec a b bj fuel alo ahi blo bhi) ahi bhi := by
  intro fuel
  induction fuel with
  | zero => intro alo ahi blo bhi _ _ _; simp only [matching_blocks_rec]; trivial
  | succ fuel ih =>
    intro alo ahi blo bhi hfuel h1 h2
    simp only [matching_blocks_rec]
    have hb := flm_bounds a b bj alo ahi blo bhi h1 h2
    set m := find_longest_match a b bj alo ahi blo bhi with hm
    rcases hb with ⟨b1, b2, b3, b4⟩
    by_cases hz : m.bestsize = 0
    · simp only [if_pos hz]; trivial
    · simp only [if_neg hz]
      have hleft : BlocksWithin alo blo
          (if alo < m.besti ∧ blo < m.bestj then
            matching_blocks_rec a b bj fuel alo m.besti blo m.bestj
          else []) m.besti m.bestj := by
        by_cases hg : alo < m.besti ∧ blo < m.bestj
        · simp only [if_pos hg]
          exact ih alo m.besti blo m.bestj (by omega) (by omega) (by omega)
        · simp only [if_neg hg]; trivial
      have hright : BlocksWithin m.besti m.bestj
          ((m.besti, m.bestj, m.bestsize) ::
            (if m.besti + m.bestsize < ahi ∧ m.bestj + m.bestsize < bhi then
              matching_blocks_rec a b bj fuel (m.besti + m.bestsize) ahi
                (m.bestj + m.bestsize) bhi
            else [])) ahi bhi := by
        refine ⟨le_rfl, le_rfl, b3, b4, ?_⟩
        by_cases hg : m.besti + m.bestsize < ahi ∧ m.bestj + m.bestsize < bhi
        · simp only [if_pos hg]
          exact ih (m.besti + m.bestsize) ahi (m.bestj + m.bestsize) bhi
            (by omega) (by omega) (by omega)
        · simp only [if_neg hg]; trivial
      exact blocksWithin_append (by omega) (by omega) _ _ hleft hright b1 b2

/-- Merging adjacent blocks preserves order and bounds. -/
theorem merge_blocks_within {la lb : Nat} :
    ∀ (bs : List (Nat × Nat × Nat)) (i1 j1 k1 : Nat),
      BlocksWithin (i1 + k1) (j1 + k1) bs la lb →
      i1 + k1 ≤ la → j1 + k1 ≤ lb →
      BlocksWithin i1 j1 (merge_blocks (i1, j1, k1) bs) la lb := by
  intro bs
  induction bs with
  | nil =>
    intro i1 j1 k1 _ h1 h2
    by_cases hk : k1 ≠ 0
    · simp only [merge_blocks, if_pos hk]
      exact ⟨le_rfl, le_rfl, h1, h2, trivial⟩
    · simp only [merge_blocks, if_neg hk]; trivial
  | cons blk rest ih =>
    rcases blk with ⟨i2, j2, k2⟩
    intro i1 j1 k1 h h1 h2
    rcases h with ⟨a1, a2, a3, a4, a5⟩
    by_cases hadj : i1 + k1 = i2 ∧ j1 + k1 = j2
    · simp only [merge_blocks, if_pos hadj]
      have := ih i1 j1 (k1 + k2) (by rw [show i1 + (k1 + k2) = i2 + k2 by omega,
        show j1 + (k1 + k2) = j2 + k2 by omega]; exact a5) (by omega) (by omega)
      exact this
    · simp only [merge_blocks, if_neg hadj]
      have hrest := ih i2 j2 k2 a5 a3 a4
      by_cases hk : k1 ≠ 0
      · simp only [if_pos hk, List.singleton_append]
        exact ⟨le_rfl, le_rfl, by omega, by omega,
          blocksWithin_mono_start hrest a1 a2⟩
      · simp only [if_neg hk, List.nil_append]
        exact blocksWithin_mono_start hrest (by omega) (by omega)

/-- Appending the `(la, lb, 0)` sentinel turns bounded ordered blocks into
a chain ending exactly at `(la, lb)`. -/
theorem chainTo_of_blocksWithin {la lb : Nat} :
    ∀ (bs : List (Nat × Nat × Nat)) (i0 j0 : Nat),
      BlocksWithin i0 j0 bs la lb → i0 ≤ la → j0 ≤ lb →
      ChainTo i0 j0 (bs ++ [(la, lb, 0)]) la lb := by
  intro bs
  induction bs with
  | nil =>
    intro i0 j0 _ h1 h2
    exact ⟨h1, h2, by simp [ChainTo]⟩
  | cons blk rest ih =>
    rcases blk with ⟨i, j, k⟩
    intro i0 j0 h h1 h2
    rcases h with ⟨a1, a2, a3, a4, a5⟩
    exact ⟨a1, a2, ih (i + k) (j + k) a5 a3 a4⟩

/-- The blocks of `get_matching_blocks` form a chain from `(0, 0)` to
`(len a, len b)`. -/
theorem get_matching_blocks_chainTo (a b : List Line) :
    ChainTo 0 0 (get_matching_blocks a b) a.length b.length := by
  unfold get_matching_blocks
  have hrec := matching_blocks_rec_within a b (b2j b) (a.length + b.length)
    0 a.length 0 b.length (by omega) (by omega) (by omega)
  have hmerge := merge_blocks_within
    (matching_blocks_rec a b (b2j b) (a.length + b.length) 0 a.length 0 b.length)
    0 0 0 (by simpa using hrec) (by omega) (by omega)
  exact chainTo_of_blocksWithin _ 0 0 (by simpa using hmerge) (by omega) (by omega)

/-! ## Supporting lemmas for C3: opcode extents -/

theorem chainTo_le {la lb : Nat} :
    ∀ {bs : List (Nat × Nat × Nat)} {i j : Nat},
      ChainTo i j bs la lb → i ≤ la ∧ j ≤ lb := by
  intro bs
  induction bs with
  | nil => intro i j h; exact ⟨h.1.le, h.2.le⟩
  | cons blk rest ih =>
    rcases blk with ⟨bi, bjj, k⟩
    intro i j h
    rcases h with ⟨a1, a2, a3⟩
    have := ih a3
    exact ⟨by omega, by omega⟩

theorem opSumI_append (xs ys : List Opcode) :
    opSumI (xs ++ ys) = opSumI xs + opSumI ys := by
  simp [opSumI]

theorem opSumJ_append (xs ys : List Opcode) :
    opSumJ (xs ++ ys) = opSumJ xs + opSumJ ys := by
  simp [opSumJ]

theorem opEqSumI_append (xs ys : List Opcode) :
    opEqSumI (xs ++ ys) = opEqSumI xs + opEqSumI ys := by
  simp [opEqSumI]

theorem opEqSumJ_append (xs ys : List Opcode) :
    opEqSumJ (xs ++ ys) = opEqSumJ xs + opEqSumJ ys := by
  simp [opEqSumJ]

theorem opAddJ_append (xs ys : List Opcode) :
    opAddJ (xs ++ ys) = opAddJ xs + opAddJ ys := by
  simp [opAddJ]

theorem opRemI_append (xs ys : List Opcode) :
    opRemI (xs ++ ys) = opRemI xs + opRemI ys := by
  simp [opRemI]

/-- The opcodes of a chain partition exactly the two index ranges. -/
theorem opcodesLoop_sums {la lb : Nat} :
    ∀ (bs : List (Nat × Nat × Nat)) (i j : Nat), ChainTo i j bs la lb →
      opSumI (opcodesLoop i j bs) = la - i ∧ opSumJ (opcodesLoop i j bs) = lb - j := by
  intro bs
  induction bs with
  | nil =>
    intro i j h
    rcases h with ⟨rfl, rfl⟩
    simp [opcodesLoop, opSumI, opSumJ]
  | cons blk rest ih =>
    rcases blk with ⟨ai, bj, size⟩
    intro i j h
    rcases h with ⟨a1, a2, a3⟩
    have hrest := ih (ai + size) (bj + size) a3
    have hle := chainTo_le a3
    simp only [opcodesLoop, opSumI_append, opSumJ_append]
    have hgapI : opSumI
        (if i < ai ∧ j < bj then [⟨.replace, i, ai, j, bj⟩]
         else if i < ai then [⟨.delete, i, ai, j, bj⟩]
         else if j < bj then [⟨.insert, i, ai, j, bj⟩]
         else []) = ai - i ∧
        opSumJ
        (if i < ai ∧ j < bj then [⟨.replace, i, ai, j, bj⟩]
         else if i < ai then [⟨.delete, i, ai, j, bj⟩]
         else if j < bj then [⟨.insert, i, ai, j, bj⟩]
         else []) = bj - j := by
      by_cases h1 : i < ai ∧ j < bj
      · simp only [if_pos h1]; simp [opSumI, opSumJ]
      · by_cases h2 : i < ai
        · simp only [if_neg h1, if_pos h2]
          simp only [opSumI, opSumJ, List.map_cons, List.map_nil, List.sum_cons,
            List.sum_nil]
          omega
        · by_cases h3 : j < bj
          · simp only [if_neg h1, if_neg h2, if_pos h3]
            simp only [opSumI, opSumJ, List.map_cons, List.map_nil, List.sum_cons,
              List.sum_nil]
            omega
          · simp only [if_neg h1, if_neg h2, if_neg h3]
            simp only [opSumI, opSumJ, List.map_nil, List.sum_nil]
            omega
    have heq : opSumI (if size ≠ 0 then [⟨.equal, ai, ai + size, bj, bj + size⟩] else [])
          = size ∧
        opSumJ (if size ≠ 0 then [⟨.equal, ai, ai + size, bj, bj + size⟩] else [])
          = size := by
      by_cases hz : size ≠ 0
      · simp only [if_pos hz]; simp [opSumI, opSumJ]
      · simp only [if_neg hz]; simp only [opSumI, opSumJ, List.map_nil, List.sum_nil]; omega
    rw [hgapI.1, hgapI.2, heq.1, heq.2, hrest.1, hrest.2]
    omega

/-- Equal opcodes span the same number of lines on both sides. -/
theorem opcodesLoop_eq_balance :
    ∀ (bs : List (Nat × Nat × Nat)) (i j : Nat),
      opEqSumI (opcodesLoop i j bs) = opEqSumJ (opcodesLoop i j bs) := by
  intro bs
  induction bs with
  | nil => intro i j; simp [opcodesLoop, opEqSumI, opEqSumJ]
  | cons blk rest ih =>
    rcases blk with ⟨ai, bj, size⟩
    intro i j
    simp only [opcodesLoop, opEqSumI_append, opEqSumJ_append]
    have hgap : opEqSumI
        (if i < ai ∧ j < bj then [⟨.replace, i, ai, j, bj⟩]
         else if i < ai then [⟨.delete, i, ai, j, bj⟩]
         else if j < bj then [⟨.insert, i, ai, j, bj⟩]
         else []) = 0 ∧
        opEqSumJ
        (if i < ai ∧ j < bj then [⟨.replace, i, ai, j, bj⟩]
         else if i < ai then [⟨.delete, i, ai, j, bj⟩]
         else if j < bj then [⟨.insert, i, ai, j, bj⟩]
         else []) = 0 := by
      by_cases h1 : i < ai ∧ j < bj
      · simp only [if_pos h1]; simp [opEqSumI, opEqSumJ]
      · by_cases h2 : i < ai
        · simp only [if_neg h1, if_pos h2]; simp [opEqSumI, opEqSumJ]
        · by_cases h3 : j < bj
          · simp only [if_neg h1, if_neg h2, if_pos h3]; simp [opEqSumI, opEqSumJ]
          · simp only [if_neg h1, if_neg h2, if_neg h3]; simp [opEqSumI, opEqSumJ]
    have heq : opEqSumI (if size ≠ 0 then [⟨.equal, ai, ai + size, bj, bj + size⟩] else [])
          = opEqSumJ (if size ≠ 0 then [⟨.equal, ai, ai + size, bj, bj + size⟩] else []) := by
      by_cases hz : size ≠ 0
      · simp only [if_pos hz]; simp [opEqSumI, opEqSumJ]
      · simp only [if_neg hz]; simp [opEqSumI, opEqSumJ]
    rw [hgap.1, hgap.2, heq, ih (ai + size) (bj + size)]

/-- Every opcode's extent splits into the equal and non-equal parts. -/
theorem opSumJ_split (ops : List Opcode) : opAddJ ops + opEqSumJ ops = opSumJ ops := by
  induction ops with
  | nil => simp [opAddJ, opEqSumJ, opSumJ]
  | cons op rest ih =>
    cases h : op.tag == OpTag.equal with
    | true =>
      simp [opAddJ, opEqSumJ, opSumJ, List.filter_cons, h] at ih ⊢
      omega
    | false =>
      simp [opAddJ, opEqSumJ, opSumJ, List.filter_cons, h] at ih ⊢
      omega

theorem opSumI_split (ops : List Opcode) : opRemI ops + opEqSumI ops = opSumI ops := by
  induction ops with
  | nil => simp [opRemI, opEqSumI, opSumI]
  | cons op rest ih =>
    cases h : op.tag == OpTag.equal with
    | true =>
      simp [opRemI, opEqSumI, opSumI, List.filter_cons, h] at ih ⊢
      omega
    | false =>
      simp [opRemI, opEqSumI, opSumI, List.filter_cons, h] at ih ⊢
      omega

theorem opWithin_mk {la lb : Nat} {t : OpTag} {i1 i2 j1 j2 : Nat}
    (h1 : i2 ≤ la) (h2 : j2 ≤ lb) (h3 : t = OpTag.delete → j1 = j2) :
    OpWithin la lb ⟨t, i1, i2, j1, j2⟩ := ⟨h1, h2, h3⟩

/-- All opcodes of a chain end within the sequences, and delete opcodes
span no `b` lines. -/
theorem opcodesLoop_within {la lb : Nat} :
    ∀ (bs : List (Nat × Nat × Nat)) (i j : Nat), ChainTo i j bs la lb →
      ∀ op ∈ opcodesLoop i j bs, OpWithin la lb op := by
  intro bs
  induction bs with
  | nil => intro i j _ op hop; simp [opcodesLoop] at hop
  | cons blk rest ih =>
    rcases blk with ⟨ai, bj, size⟩
    intro i j h op hop
    rcases h with ⟨a1, a2, a3⟩
    have hle := chainTo_le a3
    simp only [opcodesLoop, List.mem_append, List.mem_cons] at hop
    rcases hop with (hg | he) | hr
    · -- gap opcode
      by_cases h1 : i < ai ∧ j < bj
      · simp only [if_pos h1, List.mem_singleton] at hg
        subst hg
        exact opWithin_mk (by omega) (by omega) (fun ht => absurd ht (by decide))
      · by_cases h2 : i < ai
        · simp only [if_neg h1, if_pos h2, List.mem_singleton] at hg
          subst hg
          exact opWithin_mk (by omega) (by omega) (fun _ => by omega)
        · by_cases h3 : j < bj
          · simp only [if_neg h1, if_neg h2, if_pos h3, List.mem_singleton] at hg
            subst hg
            exact opWithin_mk (by omega) (by omega) (fun ht => absurd ht (by decide))
          · simp only [if_neg h1, if_neg h2, if_neg h3] at hg
            exact absurd hg (List.not_mem_nil op)
    · -- equal opcode
      by_cases hz : size ≠ 0
      · simp only [if_pos hz, List.mem_singleton] at he
        subst he
        exact opWithin_mk (by omega) (by omega) (fun ht => absurd ht (by decide))
      · simp only [if_neg hz] at he
        exact absurd he (List.not_mem_nil op)
    · exact ih (ai + size) (bj + size) a3 op hr

/-! ## Supporting lemmas for C3: grouping preserves the non-equal opcodes -/

theorem opAddJ_cons_equal {op : Opcode} (h : op.tag = OpTag.equal) (rest : List Opcode) :
    opAddJ (op :: rest) = opAddJ rest := by
  simp [opAddJ, List.filter_cons, h]

theorem trimHead_addJ (n : Nat) (ops : List Opcode) :
    opAddJ (trimHead n ops) = opAddJ ops := by
  cases ops with
  | nil => rfl
  | cons c rest =>
    by_cases h : c.tag = OpTag.equal
    · simp only [trimHead, if_pos h]
      rw [opAddJ_cons_equal h, opAddJ_cons_equal (by exact h)]
    · simp only [trimHead, if_neg h]

theorem trimTail_addJ (n : Nat) : ∀ (ops : List Opcode),
    opAddJ (trimTail n ops) = opAddJ ops := by
  intro ops
  match ops with
  | [] => rfl
  | [c] =>
    by_cases h : c.tag = OpTag.equal
    · simp only [trimTail, if_pos h]
      rw [opAddJ_cons_equal (by exact h), opAddJ_cons_equal h]
    · simp only [trimTail, if_neg h]
  | c :: d :: rest =>
    have ih := trimTail_addJ n (d :: rest)
    simp only [trimTail]
    simp only [opAddJ, List.filter_cons] at ih ⊢
    cases hc : c.tag == OpTag.equal <;> simp [hc, ih]

theorem trimHead_within {la lb : Nat} (n : Nat) (ops : List Opcode)
    (h : ∀ op ∈ ops, OpWithin la lb op) :
    ∀ op ∈ trimHead n ops, OpWithin la lb op := by
  cases ops with
  | nil => intro op hop; simp [trimHead] at hop
  | cons c rest =>
    by_cases hc : c.tag = OpTag.equal
    · simp only [trimHead, if_pos hc]
      intro op hop
      rcases List.mem_cons.mp hop with rfl | hop
      · have := h c (List.mem_cons_self c rest)
        exact opWithin_mk this.1 this.2.1
          (fun ht => absurd (hc.symm.trans ht) (by decide))
      · exact h op (List.mem_cons_of_mem c hop)
    · simp only [trimHead, if_neg hc]
      exact h

theorem trimTail_within {la lb : Nat} (n : Nat) : ∀ (ops : List Opcode),
    (∀ op ∈ ops, OpWithin la lb op) →
    ∀ op ∈ trimTail n ops, OpWithin la lb op := by
  intro ops
  match ops with
  | [] => intro _ op hop; simp [trimTail] at hop
  | [c] =>
    intro h op hop
    by_cases hc : c.tag = OpTag.equal
    · simp only [trimTail, if_pos hc, List.mem_singleton] at hop
      subst hop
      have := h c (List.mem_singleton.mpr rfl)
      exact opWithin_mk (le_trans (Nat.min_le_left _ _) this.1)
        (le_trans (Nat.min_le_left _ _) this.2.1)
        (fun ht => absurd ht (by rw [hc]; decide))
    · simp only [trimTail, if_neg hc] at hop
      simpa using (List.mem_singleton.mp hop) ▸ h c (List.mem_singleton.mpr rfl)
  | c :: d :: rest =>
    intro h op hop
    simp only [trimTail, List.mem_cons] at hop
    rcases hop with rfl | hop
    · exact h op (List.mem_cons_self op (d :: rest))
    · exact trimTail_within n (d :: rest)
        (fun x hx => h x (List.mem_cons_of_mem c hx)) op hop

theorem keepFinalGroup_addJ (g : List Opcode) :
    groupsAddJ (keepFinalGroup g) = opAddJ g := by
  match g with
  | [] => rfl
  | [c] =>
    by_cases h : c.tag = OpTag.equal
    · simp only [keepFinalGroup, if_pos h, groupsAddJ]
      rw [opAddJ_cons_equal h]
      simp [opAddJ]
    · simp [keepFinalGroup, if_neg h, groupsAddJ]
  | c :: d :: rest => simp [keepFinalGroup, groupsAddJ]

theorem groupLoop_addJ (n : Nat) : ∀ (codes group : List Opcode),
    groupsAddJ (groupLoop n group codes) = opAddJ group + opAddJ codes := by
  intro codes
  induction codes with
  | nil =>
    intro group
    simp only [groupLoop, keepFinalGroup_addJ]
    simp [opAddJ]
  | cons c rest ih =>
    intro group
    by_cases hc : c.tag = OpTag.equal ∧ c.i2 - c.i1 > n + n
    · simp only [groupLoop, if_pos hc, groupsAddJ, List.map_cons, List.sum_cons]
      have h1 : opAddJ (group ++ [⟨OpTag.equal, c.i1, min c.i2 (c.i1 + n), c.j1,
          min c.j2 (c.j1 + n)⟩]) = opAddJ group := by
        rw [opAddJ_append]
        simp [opAddJ, List.filter_cons]
      have h2 := ih [⟨OpTag.equal, max c.i1 (c.i2 - n), c.i2, max c.j1 (c.j2 - n), c.j2⟩]
      simp only [groupsAddJ] at h2
      rw [h2, h1, opAddJ_cons_equal hc.1]
      have h3 : opAddJ [⟨OpTag.equal, max c.i1 (c.i2 - n), c.i2, max c.j1 (c.j2 - n),
          c.j2⟩] = 0 := by
        simp [opAddJ, List.filter_cons]
      rw [h3]
      omega
    · simp only [groupLoop, if_neg hc]
      rw [ih (group ++ [c]), opAddJ_append]
      simp only [opAddJ, List.filter_cons]
      cases h : c.tag == OpTag.equal with
      | true => simp [h]
      | false => simp [h]; omega

theorem keepFinalGroup_within {la lb : Nat} (g : List Opcode)
    (h : ∀ op ∈ g, OpWithin la lb op) :
    ∀ g' ∈ keepFinalGroup g, ∀ op ∈ g', OpWithin la lb op := by
  match g with
  | [] => intro g' hg'; simp [keepFinalGroup] at hg'
  | [c] =>
    intro g' hg'
    by_cases hc : c.tag = OpTag.equal
    · simp [keepFinalGroup, if_pos hc] at hg'
    · simp only [keepFinalGroup, if_neg hc, List.mem_singleton] at hg'
      subst hg'
      exact h
  | c :: d :: rest =>
    intro g' hg'
    simp only [keepFinalGroup, List.mem_singleton] at hg'
    subst hg'
    exact h

theorem groupLoop_within {la lb : Nat} (n : Nat) : ∀ (codes group : List Opcode),
    (∀ op ∈ group, OpWithin la lb op) → (∀ op ∈ codes, OpWithin la lb op) →
    ∀ g ∈ groupLoop n group codes, ∀ op ∈ g, OpWithin la lb op := by
  intro codes
  induction codes with
  | nil =>
    intro group hg _ g hmem
    exact keepFinalGroup_within group hg g hmem
  | cons c rest ih =>
    intro group hg hc g hmem
    have hcmem := hc c (List.mem_cons_self c rest)
    have hcrest : ∀ op ∈ rest, OpWithin la lb op :=
      fun op hop => hc op (List.mem_cons_of_mem c hop)
    by_cases hbig : c.tag = OpTag.equal ∧ c.i2 - c.i1 > n + n
    · simp only [groupLoop, if_pos hbig, List.mem_cons] at hmem
      rcases hmem with rfl | hmem
      · intro op hop
        rcases List.mem_append.mp hop with hop | hop
        · exact hg op hop
        · rcases List.mem_singleton.mp hop with rfl
          exact opWithin_mk (le_trans (Nat.min_le_left _ _) hcmem.1)
            (le_trans (Nat.min_le_left _ _) hcmem.2.1)
            (fun ht => absurd ht (by decide))
      · refine ih [⟨OpTag.equal, max c.i1 (c.i2 - n), c.i2, max c.j1 (c.j2 - n), c.j2⟩]
          ?_ hcrest g hmem
        intro op hop
        rcases List.mem_singleton.mp hop with rfl
        exact opWithin_mk hcmem.1 hcmem.2.1 (fun ht => absurd ht (by decide))
    · simp only [groupLoop, if_neg hbig] at hmem
      refine ih (group ++ [c]) ?_ hcrest g hmem
      intro op hop
      rcases List.mem_append.mp hop with hop | hop
      · exact hg op hop
      · rcases List.mem_singleton.mp hop with rfl
        exact hcmem

/-! ## Supporting lemmas for C3: counting the rendered `+` lines -/

theorem countAdditions_append (xs ys : List Line) :
    countAdditions (xs ++ ys) = countAdditions xs + countAdditions ys := by
  simp [countAdditions]

theorem countAdditions_space_lines (ls : List Line) :
    countAdditions (ls.map (fun l => ' ' :: l)) = 0 := by
  induction ls with
  | nil => rfl
  | cons l rest ih =>
    simp only [List.map_cons, countAdditions, List.filter_cons] at ih ⊢
    simp only [List.isPrefixOf]
    simp

theorem countAdditions_dash_lines (ls : List Line) :
    countAdditions (ls.map (fun l => '-' :: l)) = 0 := by
  induction ls with
  | nil => rfl
  | cons l rest ih =>
    simp only [List.map_cons, countAdditions, List.filter_cons] at ih ⊢
    simp only [List.isPrefixOf]
    simp

/-- A line that does not itself start with `+` is counted exactly once
when rendered as an addition. -/
theorem countAdditions_plus_lines (ls : List Line)
    (h : ∀ l ∈ ls, goodLine l = true) :
    countAdditions (ls.map (fun l => '+' :: l)) = ls.length := by
  induction ls with
  | nil => rfl
  | cons l rest ih =>
    have hl := h l (List.mem_cons_self l rest)
    have hrest := ih (fun x hx => h x (List.mem_cons_of_mem _ hx))
    have h3 : (['+', '+', '+'].isPrefixOf ('+' :: l)) = false := by
      cases l with
      | nil => simp [List.isPrefixOf]
      | cons c t =>
        have hc : ('+' == c) = false := by
          simp only [goodLine, List.isPrefixOf, Bool.and_eq_true, Bool.not_eq_true] at hl
          simpa using hl.1
        simp [List.isPrefixOf, hc]
    have hpred : (['+'].isPrefixOf ('+' :: l) && !(['+', '+', '+'].isPrefixOf ('+' :: l)))
        = true := by
      rw [h3]
      simp [List.isPrefixOf]
    simp only [List.map_cons, countAdditions, List.filter_cons, hpred, if_true,
      List.length_cons]
    simp only [countAdditions] at hrest
    omega

theorem pySlice_length (l : List Line) (i j : Nat) (h : j ≤ l.length) :
    (pySlice l i j).length = j - i := by
  simp only [pySlice, List.length_take, List.length_drop]
  omega

theorem pySlice_mem (l : List Line) (i j : Nat) :
    ∀ x ∈ pySlice l i j, x ∈ l := by
  intro x hx
  exact List.mem_of_mem_drop (List.mem_of_mem_take hx)

/-- `+` lines rendered by one opcode: none for equal/delete, the
`b`-extent for insert/replace. -/
theorem countAdditions_opcodeLines (a b : List Line) (op : Opcode)
    (hw : OpWithin a.length b.length op) (HB : ∀ l ∈ b, goodLine l = true) :
    countAdditions (opcodeLines a b op) =
      if op.tag == OpTag.equal then 0 else op.j2 - op.j1 := by
  rcases hw with ⟨h1, h2, h3⟩
  have hgood : ∀ l ∈ pySlice b op.j1 op.j2, goodLine l = true :=
    fun l hl => HB l (pySlice_mem b op.j1 op.j2 l hl)
  cases htag : op.tag with
  | equal => simp [opcodeLines, htag, countAdditions_space_lines]
  | delete =>
    simp only [opcodeLines, htag]
    rw [countAdditions_dash_lines]
    have : op.j1 = op.j2 := h3 htag
    simp [this]
  | insert =>
    simp only [opcodeLines, htag]
    rw [countAdditions_plus_lines _ hgood, pySlice_length b op.j1 op.j2 h2]
    have hne : (OpTag.insert == OpTag.equal) = false := by decide
    rw [hne]
    simp
  | replace =>
    simp only [opcodeLines, htag]
    rw [countAdditions_append, countAdditions_dash_lines,
      countAdditions_plus_lines _ hgood, pySlice_length b op.j1 op.j2 h2]
    have hne : (OpTag.replace == OpTag.equal) = false := by decide
    rw [hne]
    simp

theorem countAdditions_hunkHeader (g : List Opcode) :
    countAdditions [hunkHeader g] = 0 := by
  simp [countAdditions, hunkHeader, List.filter_cons, List.isPrefixOf]

/-- `+` lines of one rendered group. -/
theorem countAdditions_groupLines (a b : List Line) (g : List Opcode)
    (hg : ∀ op ∈ g, OpWithin a.length b.length op)
    (HB : ∀ l ∈ b, goodLine l = true) :
    countAdditions (hunkHeader g :: g.flatMap (opcodeLines a b)) = opAddJ g := by
  have hflat : ∀ (g' : List Opcode), (∀ op ∈ g', OpWithin a.length b.length op) →
      countAdditions (g'.flatMap (opcodeLines a b)) = opAddJ g' := by
    intro g'
    induction g' with
    | nil => intro _; rfl
    | cons op rest ih =>
      intro h
      have hop := h op (List.mem_cons_self op rest)
      have hrest := ih (fun x hx => h x (List.mem_cons_of_mem _ hx))
      have hcons : (op :: rest).flatMap (opcodeLines a b) =
          opcodeLines a b op ++ rest.flatMap (opcodeLines a b) := by
        simp [List.flatMap_cons]
      rw [hcons, countAdditions_append, countAdditions_opcodeLines a b op hop HB, hrest]
      cases htag : op.tag == OpTag.equal with
      | true =>
        rw [opAddJ_cons_equal (by simpa using htag)]
        simp
      | false =>
        simp only [opAddJ, List.filter_cons, htag]
        simp
  have hsplit : (hunkHeader g :: g.flatMap (opcodeLines a b)) =
      [hunkHeader g] ++ g.flatMap (opcodeLines a b) := rfl
  rw [hsplit, countAdditions_append, countAdditions_hunkHeader, hflat g hg]
  simp

/-- When `b` has more lines than `a`, the unified diff renders at least
`len b - len a` counted addition lines (given that no line of `b` itself
starts with `+`). -/
theorem unified_diff_additions_ge (a b : List Line) (ff tf : Line)
    (hlen : a.length < b.length) (HB : ∀ l ∈ b, goodLine l = true) :
    b.length ≤ a.length + countAdditions (unified_diff a b ff tf) := by
  have hchain := get_matching_blocks_chainTo a b
  have hsums := opcodesLoop_sums (get_matching_blocks a b) 0 0 hchain
  have hbal := opcodesLoop_eq_balance (get_matching_blocks a b) 0 0
  have hsplitJ := opSumJ_split (get_opcodes a b)
  have hsplitI := opSumI_split (get_opcodes a b)
  have hcodes : get_opcodes a b = opcodesLoop 0 0 (get_matching_blocks a b) := rfl
  rw [← hcodes] at hsums hbal
  -- the non-equal opcodes span at least len b - len a addition lines
  have haddJ : b.length ≤ a.length + opAddJ (get_opcodes a b) := by omega
  have hne : get_opcodes a b ≠ [] := by
    intro h
    rw [h] at haddJ
    simp only [opAddJ, List.filter_nil, List.map_nil, List.sum_nil] at haddJ
    omega
  -- grouping preserves the non-equal opcodes
  have hgaddJ : groupsAddJ (get_grouped_opcodes a b 3) = opAddJ (get_opcodes a b) := by
    simp only [get_grouped_opcodes]
    rw [if_neg hne, groupLoop_addJ, trimTail_addJ, trimHead_addJ]
    simp [opAddJ]
  have hwithin : ∀ op ∈ get_opcodes a b, OpWithin a.length b.length op :=
    opcodesLoop_within (get_matching_blocks a b) 0 0 hchain
  have hgwithin : ∀ g ∈ get_grouped_opcodes a b 3, ∀ op ∈ g,
      OpWithin a.length b.length op := by
    simp only [get_grouped_opcodes]
    rw [if_neg hne]
    exact groupLoop_within 3 _ [] (by intro op hop; simp at hop)
      (trimTail_within 3 _ (trimHead_within 3 _ hwithin))
  -- groups are nonempty and their rendered lines count exactly the extents
  have hgne : ¬(get_grouped_opcodes a b 3).isEmpty = true := by
    intro h
    rw [List.isEmpty_iff.mp h] at hgaddJ
    simp only [groupsAddJ, List.map_nil, List.sum_nil] at hgaddJ
    omega
  have hcount : countAdditions (unified_diff a b ff tf) =
      groupsAddJ (get_grouped_opcodes a b 3) := by
    unfold unified_diff
    rw [if_neg hgne]
    have hh1 : (['+'].isPrefixOf ('-' :: '-' :: '-' :: ' ' :: ff) &&
        !(['+', '+', '+'].isPrefixOf ('-' :: '-' :: '-' :: ' ' :: ff))) = false := by
      simp [List.isPrefixOf]
    have hh2 : (['+'].isPrefixOf ('+' :: '+' :: '+' :: ' ' :: tf) &&
        !(['+', '+', '+'].isPrefixOf ('+' :: '+' :: '+' :: ' ' :: tf))) = false := by
      simp [List.isPrefixOf]
    simp only [countAdditions, List.filter_cons, hh1, hh2, if_false]
    -- remaining: the flatMap over groups
    have : ∀ (gs : List (List Opcode)),
        (∀ g ∈ gs, ∀ op ∈ g, OpWithin a.length b.length op) →
        countAdditions (gs.flatMap (fun g => hunkHeader g :: g.flatMap (opcodeLines a b)))
          = groupsAddJ gs := by
      intro gs
      induction gs with
      | nil => intro _; rfl
      | cons g rest ih =>
        intro h
        have hg := h g (List.mem_cons_self g rest)
        have hrest := ih (fun x hx => h x (List.mem_cons_of_mem _ hx))
        have hcons : (g :: rest).flatMap
            (fun g => hunkHeader g :: g.flatMap (opcodeLines a b)) =
            (hunkHeader g :: g.flatMap (opcodeLines a b)) ++
              rest.flatMap (fun g => hunkHeader g :: g.flatMap (opcodeLines a b)) := by
          simp [List.flatMap_cons]
        rw [hcons, countAdditions_append, countAdditions_groupLines a b g hg HB, hrest]
        simp [groupsAddJ]
    exact this _ hgwithin
  omega

/-! ## Supporting lemmas for C3: shape of `json.dumps` lines -/

theorem plusPrefix_cons (c : Char) (t : Line) :
    (['+'].isPrefixOf (c :: t)) = ('+' == c) := by
  simp [List.isPrefixOf]

theorem goodLine_cons (c : Char) (t : Line) (h : ('+' == c) = false) :
    goodLine (c :: t) = true := by
  simp [goodLine, plusPrefix_cons, h]

theorem goodLine_pre (pre content : Line) (hp : (['+'].isPrefixOf pre) = false)
    (hc : goodLine content = true) : goodLine (pre ++ content) = true := by
  cases pre with
  | nil => simpa using hc
  | cons c t =>
    rw [plusPrefix_cons] at hp
    simp only [List.cons_append]
    exact goodLine_cons c _ hp

theorem goodLine_append_right (l : Line) (c : Char) (h : goodLine l = true) :
    goodLine (l ++ [c]) = true := by
  cases l with
  | nil => simp [goodLine] at h
  | cons d t =>
    simp only [goodLine, plusPrefix_cons, Bool.and_eq_true, Bool.not_eq_true] at h
    simp only [List.cons_append]
    exact goodLine_cons d _ (by simpa using h.1)

theorem appendLast_good (c : Char) : ∀ (ls : List Line),
    (∀ l ∈ ls, goodLine l = true) → ∀ l ∈ appendLast ls c, goodLine l = true := by
  intro ls
  match ls with
  | [] => intro _ l hl; simp [appendLast] at hl
  | [x] =>
    intro h l hl
    simp only [appendLast, List.mem_singleton] at hl
    subst hl
    exact goodLine_append_right x c (h x (List.mem_singleton.mpr rfl))
  | x :: y :: rest =>
    intro h l hl
    simp only [appendLast, List.mem_cons] at hl
    rcases hl with rfl | hl
    · exact h l (List.mem_cons_self l _)
    · exact appendLast_good c (y :: rest)
        (fun z hz => h z (List.mem_cons_of_mem x hz)) l hl

theorem digitChar_ne_plus (d : Nat) : ('+' == digitChar d) = false := by
  unfold digitChar
  split <;> decide

theorem natCharsFuel_no_plus : ∀ (f n : Nat),
    (['+'].isPrefixOf (natCharsFuel f n)) = false := by
  intro f
  induction f with
  | zero => intro n; simp [natCharsFuel, List.isPrefixOf]
  | succ f ih =>
    intro n
    by_cases h : n < 10
    · simp only [natCharsFuel, if_pos h]
      rw [plusPrefix_cons]
      exact digitChar_ne_plus n
    · simp only [natCharsFuel, if_neg h]
      cases hL : natCharsFuel f (n / 10) with
      | nil => simp only [List.nil_append, plusPrefix_cons]; exact digitChar_ne_plus _
      | cons c t =>
        have := ih (n / 10)
        rw [hL, plusPrefix_cons] at this
        simp only [List.cons_append, plusPrefix_cons]
        exact this

theorem natCharsFuel_ne_nil (f n : Nat) : natCharsFuel (f + 1) n ≠ [] := by
  by_cases h : n < 10
  · simp [natCharsFuel, if_pos h]
  · simp only [natCharsFuel, if_neg h]
    intro hcontra
    exact absurd (List.append_eq_nil.mp hcontra).2 (by simp)

theorem natChars_good : ∀ (n : Nat), goodLine (natChars n) = true := by
  intro n
  have h1 := natCharsFuel_no_plus (n + 1) n
  have h2 := natCharsFuel_ne_nil n n
  simp only [natChars, goodLine, h1, Bool.not_false, Bool.true_and]
  simpa [List.isEmpty_iff] using h2

theorem intChars_good (n : Int) : goodLine (intChars n) = true := by
  by_cases h : n < 0
  · simp only [intChars, if_pos h]
    exact goodLine_cons '-' _ (by decide)
  · simp only [intChars, if_neg h]
    exact natChars_good _

theorem plusPrefix_append_pad (ind : Line) (h : (['+'].isPrefixOf ind) = false) :
    (['+'].isPrefixOf (ind ++ [' ', ' '])) = false := by
  cases ind with
  | nil => decide
  | cons c t =>
    rw [plusPrefix_cons] at h
    simp only [List.cons_append, plusPrefix_cons]
    exact h

theorem plusPrefix_entry (ind rest : Line) (h : (['+'].isPrefixOf ind) = false) :
    (['+'].isPrefixOf (ind ++ '"' :: rest)) = false := by
  cases ind with
  | nil => simp [plusPrefix_cons]
  | cons c t =>
    rw [plusPrefix_cons] at h
    simp only [List.cons_append, plusPrefix_cons]
    exact h

mutual

/-- Every serialized line is nonempty and does not start with `+`. -/
theorem serVal_good : ∀ (v : JVal) (pre ind : Line),
    (['+'].isPrefixOf pre) = false → (['+'].isPrefixOf ind) = false →
    ∀ l ∈ serVal v pre ind, goodLine l = true
  | .null, pre, ind, hp, _ => by
    intro l hl
    simp only [serVal, List.mem_singleton] at hl
    subst hl
    exact goodLine_pre pre _ hp (by decide)
  | .bool true, pre, ind, hp, _ => by
    intro l hl
    simp only [serVal, List.mem_singleton] at hl
    subst hl
    exact goodLine_pre pre _ hp (by decide)
  | .bool false, pre, ind, hp, _ => by
    intro l hl
    simp only [serVal, List.mem_singleton] at hl
    subst hl
    exact goodLine_pre pre _ hp (by decide)
  | .num n, pre, ind, hp, _ => by
    intro l hl
    simp only [serVal, List.mem_singleton] at hl
    subst hl
    exact goodLine_pre pre _ hp (intChars_good n)
  | .str s, pre, ind, hp, _ => by
    intro l hl
    simp only [serVal, List.mem_singleton] at hl
    subst hl
    refine goodLine_pre pre _ hp ?_
    exact goodLine_cons '"' _ (by decide)
  | .arr [], pre, ind, hp, _ => by
    intro l hl
    simp only [serVal, List.mem_singleton] at hl
    subst hl
    exact goodLine_pre pre _ hp (by decide)
  | .arr (x :: xs), pre, ind, hp, hi => by
    intro l hl
    simp only [serVal, List.mem_cons, List.mem_append, List.mem_singleton] at hl
    rcases hl with (rfl | hl) | rfl | h0
    · exact goodLine_pre pre _ hp (by decide)
    · exact serItems_good (x :: xs) (ind ++ [' ', ' '])
        (plusPrefix_append_pad ind hi) l hl
    · exact goodLine_pre ind _ hi (by decide)
    · exact absurd h0 (List.not_mem_nil l)
  | .obj [], pre, ind, hp, _ => by
    intro l hl
    simp only [serVal, List.mem_singleton] at hl
    subst hl
    exact goodLine_pre pre _ hp (by decide)
  | .obj (p :: ps), pre, ind, hp, hi => by
    intro l hl
    simp only [serVal, List.mem_cons, List.mem_append, List.mem_singleton] at hl
    rcases hl with (rfl | hl) | rfl | h0
    · exact goodLine_pre pre _ hp (by decide)
    · exact serEntries_good (p :: ps) (ind ++ [' ', ' '])
        (plusPrefix_append_pad ind hi) l hl
    · exact goodLine_pre ind _ hi (by decide)
    · exact absurd h0 (List.not_mem_nil l)

theorem serItems_good : ∀ (xs : List JVal) (ind : Line),
    (['+'].isPrefixOf ind) = false →
    ∀ l ∈ serItems xs ind, goodLine l = true
  | [], ind, _ => by intro l hl; simp [serItems] at hl
  | [x], ind, hi => by
    intro l hl
    exact serVal_good x ind ind hi hi l hl
  | x :: y :: ys, ind, hi => by
    intro l hl
    simp only [serItems, List.mem_append] at hl
    rcases hl with hl | hl
    · exact appendLast_good ',' _ (serVal_good x ind ind hi hi) l hl
    · exact serItems_good (y :: ys) ind hi l hl

theorem serEntries_good : ∀ (ps : List (String × JVal)) (ind : Line),
    (['+'].isPrefixOf ind) = false →
    ∀ l ∈ serEntries ps ind, goodLine l = true
  | [], ind, _ => by intro l hl; simp [serEntries] at hl
  | [(k, v)], ind, hi => by
    intro l hl
    simp only [serEntries] at hl
    refine serVal_good v (ind ++ quoteChars k ++ [':', ' ']) ind ?_ hi l hl
    rw [show ind ++ quoteChars k ++ [':', ' '] =
      ind ++ ('"' :: (k.data.flatMap escapeChar ++ ['"'] ++ [':', ' '])) by
      simp [quoteChars]]
    exact plusPrefix_entry ind _ hi
  | (k, v) :: q :: ps, ind, hi => by
    intro l hl
    simp only [serEntries, List.mem_append] at hl
    rcases hl with hl | hl
    · refine appendLast_good ',' _ ?_ l hl
      refine serVal_good v (ind ++ quoteChars k ++ [':', ' ']) ind ?_ hi
      rw [show ind ++ quoteChars k ++ [':', ' '] =
        ind ++ ('"' :: (k.data.flatMap escapeChar ++ ['"'] ++ [':', ' '])) by
        simp [quoteChars]]
      exact plusPrefix_entry ind _ hi
    · exact serEntries_good (q :: ps) ind hi l hl

end

/-- No line of a dumped document starts with `+`, and none is empty. -/
theorem dumpsLines_good (v : JVal) : ∀ l ∈ dumpsLines v, goodLine l = true :=
  serVal_good v.norm [] [] rfl rfl

theorem appendLast_length (c : Char) : ∀ (ls : List Line),
    (appendLast ls c).length = ls.length := by
  intro ls
  match ls with
  | [] => rfl
  | [x] => rfl
  | x :: y :: rest =>
    simp only [appendLast, List.length_cons]
    rw [appendLast_length c (y :: rest)]
    simp

mutual

/-- The number of serialized lines depends only on the value. -/
theorem serVal_length : ∀ (v : JVal) (pre ind : Line),
    (serVal v pre ind).length = numLines v
  | .null, _, _ => rfl
  | .bool true, _, _ => rfl
  | .bool false, _, _ => rfl
  | .num _, _, _ => rfl
  | .str _, _, _ => rfl
  | .arr [], _, _ => rfl
  | .arr (x :: xs), pre, ind => by
    simp only [serVal, numLines, List.length_cons, List.length_append,
      List.length_singleton, List.length_nil]
    rw [serItems_length (x :: xs) (ind ++ [' ', ' '])]
    omega
  | .obj [], _, _ => rfl
  | .obj (p :: ps), pre, ind => by
    simp only [serVal, numLines, List.length_cons, List.length_append,
      List.length_singleton, List.length_nil]
    rw [serEntries_length (p :: ps) (ind ++ [' ', ' '])]
    omega

theorem serItems_length : ∀ (xs : List JVal) (ind : Line),
    (serItems xs ind).length = numLinesItems xs
  | [], _ => rfl
  | [x], ind => by
    simp only [serItems, numLinesItems]
    rw [serVal_length x ind ind]
    omega
  | x :: y :: ys, ind => by
    simp only [serItems, numLinesItems, List.length_append]
    rw [appendLast_length, serVal_length x ind ind, serItems_length (y :: ys) ind]
    simp [numLinesItems]

theorem serEntries_length : ∀ (ps : List (String × JVal)) (ind : Line),
    (serEntries ps ind).length = numLinesEntries ps
  | [], _ => rfl
  | [(k, v)], ind => by
    simp only [serEntries, numLinesEntries]
    rw [serVal_length v (ind ++ quoteChars k ++ [':', ' ']) ind]
    omega
  | (k, v) :: q :: ps, ind => by
    simp only [serEntries, numLinesEntries, List.length_append]
    rw [appendLast_length, serVal_length v (ind ++ quoteChars k ++ [':', ' ']) ind,
      serEntries_length (q :: ps) ind]
    simp [numLinesEntries]

end

theorem numLines_pos (v : JVal) : 1 ≤ numLines v := by
  cases v with
  | null => simp [numLines]
  | bool b => simp [numLines]
  | num n => simp [numLines]
  | str s => simp [numLines]
  | arr xs =>
    cases xs with
    | nil => simp [numLines]
    | cons h t => simp only [numLines]; omega
  | obj kvs =>
    cases kvs with
    | nil => simp [numLines]
    | cons h t => simp only [numLines]; omega

theorem numLinesEntries_sum : ∀ (ps : List (String × JVal)),
    numLinesEntries ps = (ps.map (fun p => numLines p.2)).sum := by
  intro ps
  induction ps with
  | nil => rfl
  | cons p rest ih =>
    rcases p with ⟨k, v⟩
    simp only [numLinesEntries, List.map_cons, List.sum_cons, ih]

/-- Line count of a dumped object document. -/
theorem dumpsLines_obj_length (kvs : List (String × JVal)) :
    (dumpsLines (JVal.obj kvs)).length =
      if kvs.isEmpty then 1 else 2 + (kvs.map (fun p => numLines p.2.norm)).sum := by
  have h1 : dumpsLines (JVal.obj kvs) = serVal (.obj (sortKeys (jpairsNorm kvs))) [] [] := by
    simp [dumpsLines, JVal.norm]
  rw [h1, serVal_length]
  cases kvs with
  | nil => rfl
  | cons p rest =>
    have hnil : sortKeys (jpairsNorm (p :: rest)) ≠ [] := by
      intro hcontra
      have hlen := congrArg List.length hcontra
      rw [(sortKeys_perm (jpairsNorm (p :: rest))).length_eq, jpairsNorm_eq_map,
        List.length_map] at hlen
      simp at hlen
    have hsum : numLinesEntries (sortKeys (jpairsNorm (p :: rest))) =
        ((p :: rest).map (fun q => numLines q.2.norm)).sum := by
      rw [numLinesEntries_sum]
      have hperm : ((sortKeys (jpairsNorm (p :: rest))).map (fun q => numLines q.2)).Perm
          ((jpairsNorm (p :: rest)).map (fun q => numLines q.2)) :=
        (sortKeys_perm (jpairsNorm (p :: rest))).map _
      rw [hperm.sum_eq, jpairsNorm_eq_map, List.map_map]
      rfl
    cases hs : sortKeys (jpairsNorm (p :: rest)) with
    | nil => exact absurd hs hnil
    | cons q qs =>
      have hnum : numLines (JVal.obj (q :: qs)) = 2 + numLinesEntries (q :: qs) := rfl
      rw [hnum, ← hs, hsum]
      rfl

theorem jpairsBEq_length : ∀ (ps qs : List (String × JVal)),
    jpairsBEq ps qs = true → ps.length = qs.length := by
  intro ps
  induction ps with
  | nil =>
    intro qs h
    cases qs with
    | nil => rfl
    | cons q qt => simp [jpairsBEq] at h
  | cons p pt ih =>
    intro qs h
    cases qs with
    | nil => rcases p with ⟨k, v⟩; simp [jpairsBEq] at h
    | cons q qt =>
      rcases p with ⟨k, v⟩
      rcases q with ⟨k2, v2⟩
      simp only [jpairsBEq, Bool.and_eq_true] at h
      simp only [List.length_cons, ih qt h.2]

/-! ## C3 -/

/-- C3 counterexample: adding the top-level key `"z"` to `{"a": 1}` makes
the previously-last entry line gain a trailing comma in the canonical
serialization, so the unified diff contains a removal: `removedCount` is
1, not 0 as claimed. -/
theorem compare_extra_key_removals_nonzero :
    (compare_configs (.obj [("a", .num 1)]) (.obj [("a", .num 1), ("z", .num 2)])
      ("template.json".data) ("live_config.json".data)).removals ≠ 0 := by decide

/-- C3 (amended): for every pair of documents where the second differs
from the first only by one extra top-level key, `compare_configs` returns
`equal = false` and `addedCount ≥ 1`; `removedCount` need not be 0 (the
extra key can change the trailing comma of an existing serialized line,
producing paired removal/addition lines). -/
theorem compare_extra_key (kvs kvs' : List (String × JVal)) (extra : String)
    (v : JVal) (ff tf : Line)
    (hperm : kvs'.Perm ((extra, v) :: kvs))
    (hfresh : extra ∉ kvs.map Prod.fst) :
    (compare_configs (.obj kvs) (.obj kvs') ff tf).different = true ∧
    1 ≤ (compare_configs (.obj kvs) (.obj kvs') ff tf).additions := by
  -- serialized line counts: the extra key adds at least one line
  have hsum' : (kvs'.map (fun p => numLines p.2.norm)).sum =
      numLines v.norm + (kvs.map (fun p => numLines p.2.norm)).sum := by
    have := (hperm.map (fun p => numLines p.2.norm)).sum_eq
    simpa using this
  have hne' : kvs' ≠ [] := by
    intro hcontra
    have := hperm.length_eq
    rw [hcontra] at this
    simp at this
  have hlen : (dumpsLines (JVal.obj kvs)).length < (dumpsLines (JVal.obj kvs')).length := by
    have hE' : kvs'.isEmpty = false := by
      cases kvs' with
      | nil => exact absurd rfl hne'
      | cons q qt => rfl
    rw [dumpsLines_obj_length, dumpsLines_obj_length, hE', hsum']
    simp only [Bool.false_eq_true, if_false]
    have hv := numLines_pos v.norm
    cases hE : kvs.isEmpty with
    | true =>
      have hk : kvs = [] := List.isEmpty_iff.mp hE
      subst hk
      rw [if_pos rfl]
      simp only [List.map_nil, List.sum_nil]
      omega
    | false =>
      rw [if_neg Bool.false_ne_true]
      omega
  -- Python equality is false: the dict sizes differ
  have hpy : pyEq (.obj kvs) (.obj kvs') = false := by
    by_contra hcontra
    have htrue : pyEq (.obj kvs) (.obj kvs') = true := by
      cases hx : pyEq (.obj kvs) (.obj kvs') with
      | true => rfl
      | false => exact absurd hx hcontra
    have hlenEq : (sortKeys (jpairsNorm kvs)).length =
        (sortKeys (jpairsNorm kvs')).length := by
      simp only [pyEq, JVal.norm, jvalBEq] at htrue
      exact jpairsBEq_length _ _ htrue
    rw [(sortKeys_perm (jpairsNorm kvs)).length_eq,
      (sortKeys_perm (jpairsNorm kvs')).length_eq,
      jpairsNorm_eq_map, jpairsNorm_eq_map, List.length_map, List.length_map] at hlenEq
    have := hperm.length_eq
    simp only [List.length_cons] at this
    omega
  have hmain := unified_diff_additions_ge (dumpsLines (JVal.obj kvs))
    (dumpsLines (JVal.obj kvs')) ff tf hlen (dumpsLines_good _)
  constructor
  · simp [compare_configs, hpy]
  · simp only [compare_configs, hpy, Bool.false_eq_true, if_false]
    omega

/-- Witness for C3 (amended) at `{"a": 1}` against `{"a": 1, "z": 2}`. -/
theorem compare_extra_key_witness :
    (compare_configs (.obj [("a", .num 1)]) (.obj [("a", .num 1), ("z", .num 2)])
      ("template.json".data) ("live_config.json".data)).different = true ∧
    1 ≤ (compare_configs (.obj [("a", .num 1)]) (.obj [("a", .num 1), ("z", .num 2)])
      ("template.json".data) ("live_config.json".data)).additions :=
  compare_extra_key [("a", .num 1)] [("a", .num 1), ("z", .num 2)] "z" (.num 2)
    ("template.json".data) ("live_config.json".data)
    (List.Perm.swap ("z", JVal.num 2) ("a", JVal.num 1) []) (by decide)

end Aruba
